import Mathlib

/-!
Verification of the facade job-orchestration core.

This file gives a shallow embedding of the pieces of the repository that the
specified properties talk about:

* the CSV line/field manipulation and packaging used by the final stage of
  `src/jobs/jobManager.ts` (`run`, stage 100);
* the retry/fallback protocol of the generator client
  (`generateEaziPayWithRetry`, `directImport`, `httpGenerate`);
* the deterministic stub mode of the report-translation client
  (`generateDdicaWithRetry`);
* the durable store scan `loadAll` of `src/jobs/jobStore.ts`;
* the job table, scheduler and state machine of `src/jobs/jobManager.ts`
  (`enqueue`, `schedule`, `run`, `stage`, `cancel`), as a transition system
  whose events are the atomic blocks between `await` points of the source.

File contents and CSV fields are modelled as lists of characters, mirroring
JavaScript string indexing.  The SHA-256 checksum and JSON serialisation are
treated as primitive utility operations (per the specification's scope) and
appear as an abstract hash parameter `h : Str → String` and as structured
metadata values.  Definitions come first, all theorems follow.
-/

namespace Facade

/-- Character sequences: file contents and CSV fields. -/
abbrev Str := List Char

/-- Split a character sequence at every occurrence of the separator `c`.
Mirrors JavaScript `String.prototype.split` with a one-character separator:
the result always has at least one piece, and pieces never contain `c`. -/
def splitOnChar (c : Char) : Str → List Str
  | [] => [[]]
  | x :: xs =>
    if x = c then [] :: splitOnChar c xs
    else
      match splitOnChar c xs with
      | [] => [[x]]
      | p :: ps => (x :: p) :: ps

/-- Join pieces with the separator `c`. Mirrors `Array.prototype.join`. -/
def joinWith (c : Char) : List Str → Str
  | [] => []
  | [p] => p
  | p :: q :: ps => p ++ c :: joinWith c (q :: ps)

/-- Remove one trailing carriage return. Splitting on `/\r?\n/` in the source
equals splitting at every newline and absorbing one carriage return at the end
of each piece. -/
def dropTrailingCR (l : Str) : Str :=
  if l.getLast? = some '\r' then l.dropLast else l

/-- Trim leading and trailing whitespace from a character sequence (mirrors
JavaScript `String.prototype.trim`). -/
def trimChars (l : Str) : Str :=
  ((l.dropWhile Char.isWhitespace).reverse.dropWhile Char.isWhitespace).reverse

/-! ## Job data model (`src/jobs/jobManager.ts`, lines 14–44) -/

/-- `JobState`: `pending | running | completed | failed`. -/
inductive JobState
  | pending
  | running
  | completed
  | failed
deriving DecidableEq, Repr

/-- The optional originating-account override of a request (`JobRequest.sun`). -/
structure SunFields where
  sunNumber : Option String
  sunName : Option String
  sortCode : Option String
  accountNumber : Option String
  accountName : Option String
deriving DecidableEq, Repr

/-- `JobRequest`: the immutable submission snapshot. -/
structure JobRequest where
  fileTypes : List String
  rows : Nat
  seed : Option Nat
  processingDate : Option String
  fail : Bool
  sun : Option SunFields
deriving DecidableEq, Repr

/-- The `error` field of a job record. -/
structure JobError where
  code : String
  message : String
deriving DecidableEq, Repr

/-- The `output` field of a completed job record. -/
structure JobOutput where
  filenames : List String
  zipPath : String
  metadataPath : String
deriving DecidableEq, Repr

/-! ## CSV patching and the packaging stage
(`src/jobs/jobManager.ts`, `run`, stage 100, lines 216–296) -/

/-- Result shape of the row-generation capability (`EaziPayResult`). -/
structure EaziPayResult where
  csvContent : Str
  checksumSha256 : String
  rows : Nat
  filename : String
deriving DecidableEq, Repr

/-- `String(csvContent).split(/\r?\n/).filter(l => l.length > 0)`. -/
def csvLines (content : Str) : List Str :=
  ((splitOnChar '\n' content).map dropTrailingCR).filter (fun l => l ≠ [])

/-- Patch one CSV line: split at commas, overwrite columns 2 and 3 (indices 1
and 2) when at least three columns exist, and re-join with commas. -/
def patchLine (sc an : Str) (line : Str) : Str :=
  let parts := splitOnChar ',' line
  let parts := if 3 ≤ parts.length then (parts.set 1 sc).set 2 an else parts
  joinWith ',' parts

/-- The in-place patch of the generated rows:
`lines.map(patch).join('\n') + '\n'`. -/
def patchCsv (sc an : Str) (content : Str) : Str :=
  joinWith '\n' ((csvLines content).map (patchLine sc an)) ++ ['\n']

/-- Whether `run` takes the patch branch:
`job.request.sun && job.request.sun.sortCode && job.request.sun.accountNumber`
(JavaScript truthiness: an absent or empty string skips the patch). -/
def patchApplies (req : JobRequest) : Bool :=
  match req.sun with
  | some su =>
    match su.sortCode, su.accountNumber with
    | some sc, some an => !sc.data.isEmpty && !an.data.isEmpty
    | _, _ => false
  | none => false

/-- `finalCsv`: the content written to the on-disk EaziPay artifact. -/
def finalCsv (req : JobRequest) (gen : EaziPayResult) : Str :=
  match req.sun with
  | some su =>
    match su.sortCode, su.accountNumber with
    | some sc, some an =>
      if sc.data.isEmpty || an.data.isEmpty then gen.csvContent
      else patchCsv sc.data an.data gen.csvContent
    | _, _ => gen.csvContent
  | none => gen.csvContent

/-- The checksum recorded for the EaziPay artifact after the optional patch:
recomputed from the patched content exactly when the patch branch ran. -/
def recomputedChecksum (h : Str → String) (req : JobRequest) (gen : EaziPayResult) : String :=
  match req.sun with
  | some su =>
    match su.sortCode, su.accountNumber with
    | some sc, some an =>
      if sc.data.isEmpty || an.data.isEmpty then gen.checksumSha256
      else h (patchCsv sc.data an.data gen.csvContent)
    | _, _ => gen.checksumSha256
  | none => gen.checksumSha256

/-- One `<Row>` element of the deterministic DDICA stub. -/
def ddicaRowXml (i : Nat) : String :=
  "<Row><SeqNo>" ++ toString (i + 1) ++ "</SeqNo></Row>"

/-- The deterministic DDICA stub body:
`` `<DDICA>${seq}</DDICA>` `` with one row per requested row. -/
def ddicaStubXml (rows : Nat) : String :=
  "<DDICA>" ++ String.join ((List.range rows).map ddicaRowXml) ++ "</DDICA>"

/-- Fixed DDICA artifact filename. -/
def ddicaName : String := "DDICA.xml"

/-- Fixed metadata document filename. -/
def metadataName : String := "metadata.json"

/-- The metadata document written by the packaging stage (`combinedMeta`),
modelled structurally; JSON serialisation is a primitive. -/
structure Metadata where
  requestSun : Option SunFields
  eazipayRows : Nat
  eazipayChecksum : String
  eazipayFilename : String
  ddicaRows : Nat
  ddicaChecksum : String
  ddicaFilename : String
  totalRowsRequested : Nat
deriving DecidableEq, Repr

/-- Contents of a written or packaged file. -/
inductive FileData
  | csvData (content : Str)
  | xmlData (content : String)
  | jsonData (meta : Metadata)
deriving DecidableEq, Repr

/-- What the packaging stage produces: the files written to the job folder,
the entries added to the archive, the recorded checksum and the output
filenames put on the job record. -/
structure PackagingResult where
  diskFiles : List (String × FileData)
  zipEntries : List (String × FileData)
  eazipayChecksum : String
  outputFilenames : List String
deriving DecidableEq, Repr

/-- The packaging stage of `run` (stage 100): builds the DDICA stub, applies
the originating-account patch to the on-disk CSV, recomputes its checksum,
writes both artifacts plus the metadata document, and zips
`eazipayResult.csvContent`, the DDICA body and the metadata. -/
def packageStage (h : Str → String) (req : JobRequest) (gen : EaziPayResult) : PackagingResult :=
  let xml := ddicaStubXml req.rows
  let fc := finalCsv req gen
  let ck := recomputedChecksum h req gen
  let meta : Metadata :=
    { requestSun := req.sun
      eazipayRows := gen.rows
      eazipayChecksum := ck
      eazipayFilename := gen.filename
      ddicaRows := req.rows
      ddicaChecksum := h xml.data
      ddicaFilename := ddicaName
      totalRowsRequested := req.rows }
  { diskFiles := [(gen.filename, FileData.csvData fc),
                  (ddicaName, FileData.xmlData xml),
                  (metadataName, FileData.jsonData meta)]
    zipEntries := [(gen.filename, FileData.csvData gen.csvContent),
                   (ddicaName, FileData.xmlData xml),
                   (metadataName, FileData.jsonData meta)]
    eazipayChecksum := ck
    outputFilenames := [gen.filename, ddicaName] }

/-- The data rows of a textual artifact: nonempty newline-separated lines,
each split at commas. -/
def dataRows (content : Str) : List (List Str) :=
  ((splitOnChar '\n' content).filter (fun l => l ≠ [])).map (splitOnChar ',')

/-- Data rows of a packaged or written file (CSV files only). -/
def csvRowsOf : FileData → List (List Str)
  | FileData.csvData c => dataRows c
  | FileData.xmlData _ => []
  | FileData.jsonData _ => []

/-- The CSV contents of the first archive entry (the EaziPay file). -/
def zipCsvContent (r : PackagingResult) : Option Str :=
  match r.zipEntries with
  | (_, FileData.csvData c) :: _ => some c
  | _ => none

/-- The CSV contents of the first disk file (the EaziPay file). -/
def diskCsvContent (r : PackagingResult) : Option Str :=
  match r.diskFiles with
  | (_, FileData.csvData c) :: _ => some c
  | _ => none

/-! ## Generator client retry/fallback
(`generateEaziPayWithRetry`, `httpGenerate`, `directImport`) -/

/-- Options passed to the row-generation capability. -/
structure EaziPayGenerationOptions where
  rows : Nat
  seed : Option Nat
  allowedTransactionCodes : Option (List String)
  originating : Option SunFields
deriving DecidableEq, Repr

/-- Outcome of one HTTP attempt against the generator endpoint: a 2xx body, a
non-2xx status, or a transport-level rejection. -/
inductive HttpOutcome
  | success (body : Str)
  | failStatus (status : Nat)
  | netError (msg : String)

/-- Outcome of the dynamic-import fallback once an entry point is configured. -/
inductive ImportOutcome
  | loadError (msg : String)
  | missingExport
  | genError (msg : String)
  | generated (fileContent : Str)

/-- Environment of one invocation: the outcome of each HTTP attempt (indexed
by attempt number), the `GENERATOR_ENTRY` variable, and the fallback module
behaviour. -/
structure GenEnv where
  attempts : Nat → HttpOutcome
  generatorEntry : Option String
  importOutcome : ImportOutcome

/-- `csvContent.split(/\n/).filter(l => l.trim().length > 0).length`. -/
def countLines (s : Str) : Nat :=
  ((splitOnChar '\n' s).filter (fun l => trimChars l ≠ [])).length

/-- `` `EaziPay-${opts.rows}${opts.seed != null ? `-${opts.seed}` : ''}.csv` ``. -/
def eaziFilename (rows : Nat) (seed : Option Nat) : String :=
  "EaziPay-" ++ toString rows ++
    (match seed with
     | some sd => "-" ++ toString sd
     | none => "") ++ ".csv"

/-- `` `Generator HTTP ${res.status}` ``: the non-2xx transport error. -/
def genHttpErrorMsg (status : Nat) : String := "Generator HTTP " ++ toString status

/-- One HTTP attempt (`httpGenerate`). -/
def httpGenerate (h : Str → String) (out : HttpOutcome) (opts : EaziPayGenerationOptions) :
    Except String EaziPayResult :=
  match out with
  | HttpOutcome.netError m => Except.error m
  | HttpOutcome.failStatus n => Except.error (genHttpErrorMsg n)
  | HttpOutcome.success body =>
    Except.ok { csvContent := body, checksumSha256 := h body,
                rows := countLines body, filename := eaziFilename opts.rows opts.seed }

/-- Every `directImport` failure is wrapped as
`` `Direct import failed: ${message}` ``. -/
def directImportPrefix : String := "Direct import failed: "

/-- The error thrown when no `GENERATOR_ENTRY` is configured. -/
def missingEntryCore : String :=
  "Missing GENERATOR_ENTRY. Facade must integrate via an explicit adapter or HTTP URL."

/-- The surfaced configuration-error message of the fallback path. -/
def missingEntryMsg : String := directImportPrefix ++ missingEntryCore

/-- `'generateFile export missing'`. -/
def missingExportMsg : String := "generateFile export missing"

/-- The fallback path (`directImport`): requires a configured entry point,
loads the module, invokes `generateFile`, and derives checksum, row count and
filename from the produced content. -/
def directImport (h : Str → String) (env : GenEnv) (opts : EaziPayGenerationOptions) :
    Except String EaziPayResult :=
  match env.generatorEntry with
  | none => Except.error missingEntryMsg
  | some _ =>
    match env.importOutcome with
    | ImportOutcome.loadError m => Except.error (directImportPrefix ++ m)
    | ImportOutcome.missingExport => Except.error (directImportPrefix ++ missingExportMsg)
    | ImportOutcome.genError m => Except.error (directImportPrefix ++ m)
    | ImportOutcome.generated content =>
      Except.ok { csvContent := content, checksumSha256 := h content,
                  rows := countLines content,
                  filename := "EaziPay-" ++ toString opts.rows ++ ".csv" }

/-- Whether an attempt outcome is a failure. -/
def isErrB {ε α : Type} : Except ε α → Bool
  | Except.error _ => true
  | Except.ok _ => false

/-- Observable trace of one `generateEaziPayWithRetry` invocation: the final
result, how many HTTP attempts were made, and the backoff delay taken after
each failed attempt, in order. -/
structure EaziRetryTrace where
  result : Except String EaziPayResult
  httpTried : Nat
  backoffs : List Nat

/-- The retry loop: attempt `httpGenerate` up to `fuel` times starting at
attempt index `i`, sleeping `40 * (i + 1)` ms after each failure; once
exhausted, fall back to `directImport`. -/
def eaziRetryLoop (h : Str → String) (env : GenEnv) (opts : EaziPayGenerationOptions) :
    Nat → Nat → EaziRetryTrace
  | 0, _ => { result := directImport h env opts, httpTried := 0, backoffs := [] }
  | fuel + 1, i =>
    match httpGenerate h (env.attempts i) opts with
    | Except.ok r => { result := Except.ok r, httpTried := 1, backoffs := [] }
    | Except.error _ =>
      let t := eaziRetryLoop h env opts fuel (i + 1)
      { result := t.result, httpTried := t.httpTried + 1, backoffs := 40 * (i + 1) :: t.backoffs }

/-- `generateEaziPayWithRetry(url, opts, retries)`: with a URL, run the retry
loop (default bound 4) then fall back; without a URL, go straight to the
fallback path. -/
def generateEaziPayWithRetry (h : Str → String) (env : GenEnv) (url : Option String)
    (opts : EaziPayGenerationOptions) (retries : Nat) : EaziRetryTrace :=
  match url with
  | some _ => eaziRetryLoop h env opts retries 0
  | none => { result := directImport h env opts, httpTried := 0, backoffs := [] }

/-! ## Report-translation client (`generateDdicaWithRetry`) -/

/-- Options of the report-translation capability. -/
structure DdicaGenerationOptions where
  rows : Nat
  sun : Option SunFields
  processingDate : Option String
deriving DecidableEq, Repr

/-- Result shape of the report-translation capability. -/
structure DdicaResult where
  xmlContent : String
  checksumSha256 : String
  rows : Nat
  filename : String
  xmlPath : String
deriving DecidableEq, Repr

/-- Environment of one invocation: the test-environment flag
(`NODE_ENV === 'test' || VITEST || globalThis.vitest`), the
`JOB_FORCE_DDICA_STUB` flag, and the outcome of each HTTP translate attempt
(transport call plus XML file read, abstracted wholesale). -/
structure DdicaEnv where
  isTestEnv : Bool
  forceStub : Bool
  attempts : Nat → Except String DdicaResult

/-- Aggregate failure message prefix after exhausting all attempts. -/
def ddicaRetriesMsg : String := "DDICA generation failed after retries: "

/-- `'<DDICA></DDICA>'`: the empty stub returned when no URL is configured. -/
def emptyDdicaXml : String := "<DDICA></DDICA>"

/-- The DDICA retry loop with aggregated error messages. -/
def ddicaRetryLoop (env : DdicaEnv) : Nat → Nat → List String → Except String DdicaResult
  | 0, _, acc => Except.error (ddicaRetriesMsg ++ String.intercalate ("; ") acc)
  | fuel + 1, i, acc =>
    match env.attempts i with
    | Except.ok r => Except.ok r
    | Except.error m => ddicaRetryLoop env fuel (i + 1) (acc ++ [m])

/-- `generateDdicaWithRetry(url, opts, retries)`: in stub mode return the
deterministic stub; with no URL return the empty stub; otherwise run the
retry loop. -/
def generateDdicaWithRetry (h : Str → String) (env : DdicaEnv) (url : Option String)
    (opts : DdicaGenerationOptions) (retries : Nat) : Except String DdicaResult :=
  if env.isTestEnv || env.forceStub then
    Except.ok { xmlContent := ddicaStubXml opts.rows,
                checksumSha256 := h (ddicaStubXml opts.rows).data,
                rows := opts.rows, filename := ddicaName, xmlPath := ddicaName }
  else
    match url with
    | none =>
      Except.ok { xmlContent := emptyDdicaXml, checksumSha256 := h emptyDdicaXml.data,
                  rows := opts.rows, filename := ddicaName, xmlPath := ddicaName }
    | some _ => ddicaRetryLoop env retries 0 []

/-! ## Durable store scan (`src/jobs/jobStore.ts`, `loadAll`) -/

/-- One directory entry as `loadAll` observes it: the filename, the `stat`
outcome (`none` when `stat` failed, otherwise the size), and the `readFile`
outcome (`none` when the read failed). -/
structure DirEntry where
  name : String
  statSize : Option Nat
  content : Option Str
deriving DecidableEq, Repr

/-- Substring test (`String.prototype.includes`). -/
def hasSubstr (pat : Str) : Str → Bool
  | [] => pat.isEmpty
  | x :: xs => pat.isPrefixOf (x :: xs) || hasSubstr pat xs

/-- Suffix test (`String.prototype.endsWith`), over the character data. -/
def strEndsWith (s suffix : String) : Bool :=
  suffix.data.isSuffixOf s.data

/-- Files must end in `.json`. -/
def jsonSuffix : String := ".json"

/-- Transient temp files contain `.tmp-`. -/
def tmpMarker : String := ".tmp-"

/-- A directory entry that `loadAll` will attempt to parse: named `*.json`,
not a temp file, and with a successful non-zero-size `stat`. -/
def eligibleEntry (f : DirEntry) : Bool :=
  strEndsWith f.name jsonSuffix && !(hasSubstr tmpMarker.data f.name.data) &&
    (match f.statSize with
     | some (_ + 1) => true
     | _ => false)

/-- `loadAll()`: scan the listing in order; skip non-`.json` names, temp
files, failed or zero-size `stat`s, failed reads and unparseable contents
(each logged and skipped); collect the parsed documents. -/
def loadAll {α : Type} (parse : Str → Option α) : List DirEntry → List α
  | [] => []
  | f :: rest =>
    if !(strEndsWith f.name jsonSuffix) then loadAll parse rest
    else if hasSubstr tmpMarker.data f.name.data then loadAll parse rest
    else
      match f.statSize with
      | none => loadAll parse rest
      | some 0 => loadAll parse rest
      | some (_ + 1) =>
        match f.content with
        | none => loadAll parse rest
        | some raw =>
          match parse raw with
          | some d => d :: loadAll parse rest
          | none => loadAll parse rest

/-- An entry that `loadAll` skips: ineligible (temp name, non-JSON name,
zero/failed `stat`), unreadable, or corrupt (parse failure). -/
def skippedEntry {α : Type} (parse : Str → Option α) (f : DirEntry) : Prop :=
  eligibleEntry f = false ∨ f.content = none ∨
    (∃ raw, f.content = some raw ∧ parse raw = none)

/-! ## Job manager transition system
(`src/jobs/jobManager.ts`, `enqueue` / `schedule` / `run` / `stage` / `cancel`)

The in-memory `Map` keeps insertion order, so the job table is a list in
creation order; `randomUUID()` is modelled as a fresh counter.  Each
fire-and-forget `void jobStore.save(...)` appends a `(state, progress)`
snapshot to the job's queue of started writes (`pendingSaves`); a separate
`flush` event moves the oldest started write to `persisted`, modelling the
asynchronous completion of the store write.  The awaited save in `cancel`
completes before `cancel` returns, so there the whole queue is persisted
synchronously.  Events are the atomic blocks between `await` points of the
source; external call and file-system outcomes are event parameters. -/

/-- One job record plus its persistence bookkeeping. -/
structure Job where
  id : Nat
  state : JobState
  request : JobRequest
  progress : Nat
  error : Option JobError
  output : Option JobOutput
  cancelRequested : Bool
  pendingSaves : List (JobState × Nat)
  persisted : List (JobState × Nat)
deriving DecidableEq, Repr

/-- The manager state: the job table in insertion order, the configured
concurrency ceiling, and the fresh-id counter. -/
structure SysState where
  jobs : List Job
  concurrency : Nat
  nextId : Nat
deriving DecidableEq, Repr

/-- `runningCount()`: the number of jobs in state `running`. -/
def runningCount (s : SysState) : Nat :=
  (s.jobs.filter (fun j => j.state == JobState.running)).length

/-- `this.jobs.get(id)`. -/
def findJob (s : SysState) (id : Nat) : Option Job :=
  s.jobs.find? (fun j => j.id == id)

/-- Apply a record mutation to the job with the given id, leave others. -/
def applyAt (id : Nat) (f : Job → Job) (j : Job) : Job :=
  if j.id = id then f j else j

/-- Mutate the record with the given id in place. -/
def updateJob (s : SysState) (id : Nat) (f : Job → Job) : SysState :=
  { s with jobs := s.jobs.map (applyAt id f) }

/-- `{ code: 'JOB_CANCELLED', message: 'Cancelled while pending' }`. -/
def cancelledWhilePendingError : JobError :=
  { code := "JOB_CANCELLED", message := "Cancelled while pending" }

/-- `{ code: 'JOB_CANCEL_REQUESTED', message: 'Cancellation requested' }`. -/
def cancelRequestedError : JobError :=
  { code := "JOB_CANCEL_REQUESTED", message := "Cancellation requested" }

/-- `{ code: 'JOB_CANCELLED', message: 'Job cancelled by request' }`. -/
def cancelledError : JobError :=
  { code := "JOB_CANCELLED", message := "Job cancelled by request" }

/-- `{ code: 'JOB_FAILED', message }`. -/
def jobFailedError (msg : String) : JobError :=
  { code := "JOB_FAILED", message := msg }

/-- The message of the `fail` test hook's simulated error. -/
def simulatedFailureMsg : String := "Simulated failure"

/-- Record mutation at dispatch: the job turns `running` and the save of the
running record is started. -/
def runStartUpd (j : Job) : Job :=
  { j with state := JobState.running
           pendingSaves := j.pendingSaves ++ [(JobState.running, j.progress)] }

/-- Record mutation of a `fail`-hook job at dispatch: through `running`
straight to `failed`, with both saves started. -/
def dispatchFailUpd (j : Job) : Job :=
  { j with state := JobState.failed
           error := some (if j.cancelRequested then cancelledError
                          else jobFailedError simulatedFailureMsg)
           pendingSaves := j.pendingSaves ++
             [(JobState.running, j.progress), (JobState.failed, j.progress)] }

/-- Record mutation at a stage checkpoint: set the progress and start the
progress save. -/
def stageMarkUpd (p : Nat) (j : Job) : Job :=
  { j with progress := p
           pendingSaves := j.pendingSaves ++ [(JobState.running, p)] }

/-- Record mutation of the catch block: `failed`, the error (with the
cancellation code when `cancelRequested` is set), the save started. -/
def failUpd (msg : String) (j : Job) : Job :=
  { j with state := JobState.failed
           error := some (if j.cancelRequested then cancelledError else jobFailedError msg)
           pendingSaves := j.pendingSaves ++ [(JobState.failed, j.progress)] }

/-- Record mutation at the end of the packaging stage: output recorded,
progress 100, the save started. -/
def setOutputUpd (out : JobOutput) (j : Job) : Job :=
  { j with output := some out
           progress := 100
           pendingSaves := j.pendingSaves ++ [(JobState.running, 100)] }

/-- Record mutation of the completion block. -/
def completeUpd (j : Job) : Job :=
  { j with state := JobState.completed
           pendingSaves := j.pendingSaves ++ [(JobState.completed, j.progress)] }

/-- Record mutation of `cancel` on a pending job (save awaited). -/
def cancelPendingUpd (k : Job) : Job :=
  { k with state := JobState.failed
           error := some cancelledWhilePendingError
           persisted := k.persisted ++ k.pendingSaves ++ [(JobState.failed, k.progress)]
           pendingSaves := [] }

/-- Record mutation of `cancel` on a running job (save awaited). -/
def cancelRunningUpd (k : Job) : Job :=
  { k with cancelRequested := true
           error := some cancelRequestedError
           persisted := k.persisted ++ k.pendingSaves ++ [(JobState.running, k.progress)]
           pendingSaves := [] }

/-- Record mutation when the oldest started store write completes. -/
def flushUpd (j : Job) : Job :=
  match j.pendingSaves with
  | [] => j
  | snap :: rest => { j with pendingSaves := rest, persisted := j.persisted ++ [snap] }

/-- The synchronous prefix of `run` for a job without the `fail` hook: the
record moves to `running` and a persistence write of the running record is
started (`void jobStore.save`). -/
def dispatchRunning (s : SysState) (id : Nat) : SysState :=
  updateJob s id runStartUpd

/-- Dispatch of a job whose request carries the `fail` test hook: `run`
reaches its catch block synchronously, so the record moves through `running`
straight to `failed` with no interleaving point, starting both writes. -/
def dispatchFailed (s : SysState) (id : Nat) : SysState :=
  updateJob s id dispatchFailUpd

/-- `Array.from(this.jobs.values()).find(j => j.state === 'pending')`. -/
def nextPending (s : SysState) : Option Job :=
  s.jobs.find? (fun j => j.state == JobState.pending)

/-- One `schedule()` call: below the ceiling, dispatch the first pending job;
a `fail`-hook job fails synchronously and `run`'s `finally` re-invokes
`schedule`, hence the recursion (fuelled by the table size, which bounds the
number of pending jobs). -/
def scheduleAux : Nat → SysState → SysState
  | 0, s => s
  | fuel + 1, s =>
    if s.concurrency ≤ runningCount s then s
    else
      match nextPending s with
      | none => s
      | some j =>
        if j.request.fail then scheduleAux fuel (dispatchFailed s j.id)
        else dispatchRunning s j.id

/-- `schedule()`. -/
def schedule (s : SysState) : SysState := scheduleAux s.jobs.length s

/-- The record `enqueue` creates: `pending`, progress 0, no error or output,
cancellation flag cleared, with the enqueue save started. -/
def freshJob (id : Nat) (req : JobRequest) : Job :=
  { id := id, state := JobState.pending, request := req, progress := 0,
    error := none, output := none, cancelRequested := false,
    pendingSaves := [(JobState.pending, 0)], persisted := [] }

/-- `enqueue(req)`: append the fresh record, bump the id counter, start its
save, and call `schedule()` synchronously. -/
def enqueue (s : SysState) (req : JobRequest) : SysState :=
  schedule { s with jobs := s.jobs ++ [freshJob s.nextId req], nextId := s.nextId + 1 }

/-- The tail of `stage(job, p, fn)` after `fn` resolves: set the progress
checkpoint and start (`void`) the progress save. -/
def stageMark (s : SysState) (id : Nat) (p : Nat) : SysState :=
  updateJob s id (stageMarkUpd p)

/-- The catch block of `run`: mark `failed`, set the error (with the
cancellation code when `cancelRequested` is set), start the save, and then
(`finally`) call `schedule()` synchronously. -/
def failJob (s : SysState) (id : Nat) (msg : String) : SysState :=
  schedule (updateJob s id (failUpd msg))

/-- Successful end of the packaging stage: the output descriptor is recorded
and the progress-100 checkpoint marked. -/
def setOutput (s : SysState) (id : Nat) (out : JobOutput) : SysState :=
  updateJob s id (setOutputUpd out)

/-- The completion block of `run`: mark `completed` and start the final save
(the `finally` reschedule happens after further awaits and is modelled by a
separate event). -/
def completeJob (s : SysState) (id : Nat) : SysState :=
  updateJob s id completeUpd

/-- One pipeline step of a running job, at its current checkpoint: the
lightweight pre-stage cannot fail; the generation and packaging stages
succeed or throw according to the external outcome `res`; at progress 100 the
completion block runs. -/
def advanceJob (s : SysState) (id : Nat) (res : Except String JobOutput) : SysState :=
  match findJob s id with
  | none => s
  | some j =>
    if j.state = JobState.running then
      if j.progress = 0 then stageMark s id 20
      else if j.progress = 20 then
        match res with
        | Except.ok _ => stageMark s id 70
        | Except.error m => failJob s id m
      else if j.progress = 70 then
        match res with
        | Except.ok out => setOutput s id out
        | Except.error m => failJob s id m
      else if j.progress = 100 then completeJob s id
      else s
    else s

/-- `cancel(id)`, state change: a pending job fails with the cancellation
error and its record is saved (awaited — the write completes before `cancel`
returns); a running job gets `cancelRequested` plus a best-effort error and
is likewise saved; otherwise nothing changes. -/
def applyCancel (s : SysState) (id : Nat) : SysState :=
  match findJob s id with
  | none => s
  | some j =>
    if j.state = JobState.pending then updateJob s id cancelPendingUpd
    else if j.state = JobState.running then updateJob s id cancelRunningUpd
    else s

/-- `cancel(id)`, return value: `false` for an unknown id, `true` for a
pending or running job, `false` for a terminal job. -/
def cancelResult (s : SysState) (id : Nat) : Bool :=
  match findJob s id with
  | none => false
  | some j => j.state == JobState.pending || j.state == JobState.running

/-- Asynchronous completion of the oldest started store write of a job. -/
def flushOneSave (s : SysState) (id : Nat) : SysState :=
  updateJob s id flushUpd

instance : DecidableEq (Except String JobOutput) := fun a b =>
  match a, b with
  | Except.ok x, Except.ok y =>
    if h : x = y then isTrue (by rw [h]) else isFalse (by intro hc; cases hc; exact h rfl)
  | Except.error x, Except.error y =>
    if h : x = y then isTrue (by rw [h]) else isFalse (by intro hc; cases hc; exact h rfl)
  | Except.ok _, Except.error _ => isFalse (by intro hc; cases hc)
  | Except.error _, Except.ok _ => isFalse (by intro hc; cases hc)

/-- Events: a submission, one pipeline step of a job (with the external
outcome), a cancellation call, completion of a store write, and a scheduler
re-invocation (`run`'s `finally` after the completion block, or the warm
restart path). -/
inductive Event
  | submit (req : JobRequest)
  | advance (id : Nat) (res : Except String JobOutput)
  | cancelJob (id : Nat)
  | flush (id : Nat)
  | reschedule
deriving DecidableEq, Repr

/-- Apply one event. -/
def applyEvent (s : SysState) : Event → SysState
  | Event.submit req => enqueue s req
  | Event.advance id res => advanceJob s id res
  | Event.cancelJob id => applyCancel s id
  | Event.flush id => flushOneSave s id
  | Event.reschedule => schedule s

/-- Apply a sequence of events. -/
def applyTrace (s : SysState) (tr : List Event) : SysState := tr.foldl applyEvent s

/-- The empty manager with a configured concurrency ceiling. -/
def initState (c : Nat) : SysState := { jobs := [], concurrency := c, nextId := 0 }

/-- States reachable from the empty manager by some event sequence. -/
def Reachable (c : Nat) (s : SysState) : Prop :=
  ∃ tr : List Event, applyTrace (initState c) tr = s

/-- A store write of this `(state, progress)` snapshot has been started
(`void jobStore.save`), whether or not it has completed yet. -/
def savesStarted (j : Job) (snap : JobState × Nat) : Prop :=
  snap ∈ j.pendingSaves ∨ snap ∈ j.persisted

/-- Per-record well-formedness, maintained by every transition:
the progress checkpoints, the field/state coupling, and the fact that the
save of every passed checkpoint has been started before the next stage ran. -/
def JobWF (j : Job) : Prop :=
  (j.progress = 0 ∨ j.progress = 20 ∨ j.progress = 70 ∨ j.progress = 100) ∧
  (j.state = JobState.pending →
    j.progress = 0 ∧ j.error = none ∧ j.output = none ∧ j.cancelRequested = false) ∧
  (j.output.isSome = true ↔
    (j.state = JobState.completed ∨ (j.state = JobState.running ∧ j.progress = 100))) ∧
  (j.error.isSome = true ↔ (j.state = JobState.failed ∨ j.cancelRequested = true)) ∧
  (j.state = JobState.completed → j.progress = 100) ∧
  (20 ≤ j.progress → savesStarted j (JobState.running, 20)) ∧
  (70 ≤ j.progress → savesStarted j (JobState.running, 70)) ∧
  (100 ≤ j.progress → savesStarted j (JobState.running, 100))

/-- Records sit in creation order: strictly increasing ids, all below the
fresh-id counter. -/
def IdsOrdered (s : SysState) : Prop :=
  List.Pairwise (fun a b => a.id < b.id) s.jobs ∧ ∀ j ∈ s.jobs, j.id < s.nextId

/-- The inductive invariant of the manager. -/
def Inv (c : Nat) (s : SysState) : Prop :=
  s.concurrency = c ∧ runningCount s ≤ c ∧ IdsOrdered s ∧ ∀ j ∈ s.jobs, JobWF j

/-- How one record may change over time: the id is stable, progress never
decreases, a failed record keeps its state, output, error and progress, and a
completed record stays completed. -/
def JobEvolves (j j' : Job) : Prop :=
  j'.id = j.id ∧ j.progress ≤ j'.progress ∧
  (j.state = JobState.failed → j'.state = JobState.failed ∧ j'.output = j.output ∧
    j'.error = j.error ∧ j'.progress = j.progress) ∧
  (j.state = JobState.completed → j'.state = JobState.completed)

/-- Running-state count of a job list. -/
def runCountL (l : List Job) : Nat :=
  (l.filter (fun j => j.state == JobState.running)).length

/-! ## Concrete example data used by counterexamples and witnesses -/

/-- A well-formed `.json` store entry parsed by `c8Parse`. -/
def c8Good : DirEntry :=
  { name := "a1.json", statSize := some 12, content := some ("ok").data }

/-- A corrupt store entry: proper name and size, unparseable content. -/
def c8Corrupt : DirEntry :=
  { name := "a2.json", statSize := some 9, content := some ("garbage").data }

/-- A lingering temp file. -/
def c8Temp : DirEntry :=
  { name := "a3.tmp-17.json", statSize := some 12, content := some ("ok").data }

/-- A concrete parser recognising exactly the content of `c8Good`. -/
def c8Parse (raw : Str) : Option Nat :=
  if raw = ("ok").data then some 0 else none

/-- A trivial concrete checksum function for witnesses. -/
def cHash : Str → String := fun _ => "checksum"

/-- A generator environment whose endpoint always answers HTTP 500 and with
no `GENERATOR_ENTRY` configured. -/
def c7Env : GenEnv :=
  { attempts := fun _ => HttpOutcome.failStatus 500,
    generatorEntry := none,
    importOutcome := ImportOutcome.missingExport }

/-- Concrete generation options for witnesses. -/
def c7Opts : EaziPayGenerationOptions :=
  { rows := 2, seed := none, allowedTransactionCodes := none, originating := none }

/-- A concrete primary endpoint URL. -/
def c7Url : String := "http://localhost:3002"

/-- A DDICA environment in test mode; its transport oracle always fails. -/
def c9EnvTest : DdicaEnv :=
  { isTestEnv := true, forceStub := false,
    attempts := fun _ => Except.error ("Report API HTTP 500") }

/-- A DDICA environment with the stub forced; a different transport oracle. -/
def c9EnvForced : DdicaEnv :=
  { isTestEnv := false, forceStub := true,
    attempts := fun _ => Except.error ("Report API HTTP 404") }

/-- First concrete translation options: three rows, no overrides. -/
def c9OptsA : DdicaGenerationOptions :=
  { rows := 3, sun := none, processingDate := none }

/-- Second concrete translation options: three rows, with a SUN override and
a processing date. -/
def c9OptsB : DdicaGenerationOptions :=
  { rows := 3,
    sun := some { sunNumber := some "999888", sunName := some "TEST-SUN",
                  sortCode := some "111111", accountNumber := some "22222222",
                  accountName := some "ACCT" },
    processingDate := some "2025-01-02" }

/-- A concrete originating-account override. -/
def c3Sun : SunFields :=
  { sunNumber := none, sunName := none, sortCode := some "111111",
    accountNumber := some "22222222", accountName := none }

/-- A concrete request carrying the override. -/
def c3Req : JobRequest :=
  { fileTypes := ["EaziPay"], rows := 1, seed := none, processingDate := none,
    fail := false, sun := some c3Sun }

/-- A concrete generator result with one three-column data row. -/
def c3Gen : EaziPayResult :=
  { csvContent := ("a,b,c\n").data, checksumSha256 := "orig", rows := 1,
    filename := "EaziPay-1.csv" }

/-- A plain request without the fail hook or overrides. -/
def simpleReq : JobRequest :=
  { fileTypes := ["EaziPay"], rows := 1, seed := some 42, processingDate := none,
    fail := false, sun := none }

/-- A concrete output descriptor delivered by the packaging stage. -/
def dummyOutput : JobOutput :=
  { filenames := ["EaziPay-1.csv", "DDICA.xml"], zipPath := "artifact.zip",
    metadataPath := "metadata.json" }

/-- Submit one job (it is dispatched at once) and cancel it while running. -/
def c1Trace : List Event := [Event.submit simpleReq, Event.cancelJob 0]

/-- The state reached by `c1Trace` under concurrency 2. -/
def c1State : SysState := applyTrace (initState 2) c1Trace

/-- Submit one job and let it pass the first two pipeline checkpoints while
no store write completes. -/
def c4Trace : List Event :=
  [Event.submit simpleReq, Event.advance 0 (Except.ok dummyOutput),
   Event.advance 0 (Except.ok dummyOutput)]

/-- The state reached by `c4Trace` under concurrency 2. -/
def c4State : SysState := applyTrace (initState 2) c4Trace

/-- A burst of three submissions under concurrency 2: two dispatched, the
third queued `pending`. -/
def c2Trace : List Event :=
  [Event.submit simpleReq, Event.submit simpleReq, Event.submit simpleReq]

/-- The state reached by `c2Trace` under concurrency 2. -/
def c2State : SysState := applyTrace (initState 2) c2Trace

/-- One job driven through all pipeline checkpoints to completion. -/
def c10Trace : List Event :=
  [Event.submit simpleReq, Event.advance 0 (Except.ok dummyOutput),
   Event.advance 0 (Except.ok dummyOutput), Event.advance 0 (Except.ok dummyOutput),
   Event.advance 0 (Except.ok dummyOutput)]

/-- The state reached by `c10Trace` under concurrency 2. -/
def c10State : SysState := applyTrace (initState 2) c10Trace

/-- The third job of `c2State`: still `pending` behind the full slots. -/
def c6PendingJob : Job :=
  { id := 2, state := JobState.pending, request := simpleReq, progress := 0,
    error := none, output := none, cancelRequested := false,
    pendingSaves := [(JobState.pending, 0)], persisted := [] }

/-- The finished job of `c10State`. -/
def c10DoneJob : Job :=
  { id := 0, state := JobState.completed, request := simpleReq, progress := 100,
    error := none, output := some dummyOutput, cancelRequested := false,
    pendingSaves := [(JobState.pending, 0), (JobState.running, 0),
      (JobState.running, 20), (JobState.running, 70), (JobState.running, 100),
      (JobState.completed, 100)],
    persisted := [] }

/-! ## Theorems. First, facts about splitting and joining character lists. -/

theorem splitOnChar_ne_nil (c : Char) (s : Str) : splitOnChar c s ≠ [] := by
  induction s with
  | nil => simp [splitOnChar]
  | cons x xs ih =>
    simp only [splitOnChar]
    split
    · simp
    · cases h : splitOnChar c xs <;> simp

theorem not_mem_of_mem_splitOnChar {c : Char} {s : Str} {p : Str}
    (hp : p ∈ splitOnChar c s) : c ∉ p := by
  induction s generalizing p with
  | nil =>
    simp only [splitOnChar, List.mem_singleton] at hp
    subst hp; simp
  | cons x xs ih =>
    simp only [splitOnChar] at hp
    by_cases hx : x = c
    · rw [if_pos hx] at hp
      rcases List.mem_cons.mp hp with h | h
      · subst h; simp
      · exact ih h
    · rw [if_neg hx] at hp
      rcases h : splitOnChar c xs with _ | ⟨q, qs⟩
      · exact absurd h (splitOnChar_ne_nil c xs)
      · rw [h] at hp
        rcases List.mem_cons.mp hp with h1 | h1
        · subst h1
          intro hmem
          rcases List.mem_cons.mp hmem with h2 | h2
          · exact hx h2.symm
          · exact ih (h ▸ List.mem_cons_self q qs) h2
        · exact ih (h ▸ List.mem_cons_of_mem q h1)

theorem splitOnChar_of_not_mem {c : Char} {s : Str} (h : c ∉ s) :
    splitOnChar c s = [s] := by
  induction s with
  | nil => simp [splitOnChar]
  | cons x xs ih =>
    have hx : x ≠ c := fun hxc => h (hxc ▸ List.mem_cons_self x xs)
    have hxs : c ∉ xs := fun hm => h (List.mem_cons_of_mem x hm)
    simp only [splitOnChar, if_neg hx, ih hxs]

theorem splitOnChar_append_sep {c : Char} {p : Str} (hp : c ∉ p) (rest : Str) :
    splitOnChar c (p ++ c :: rest) = p :: splitOnChar c rest := by
  induction p with
  | nil => simp [splitOnChar]
  | cons x xs ih =>
    have hx : x ≠ c := fun hxc => hp (hxc ▸ List.mem_cons_self x xs)
    have hxs : c ∉ xs := fun hm => hp (List.mem_cons_of_mem x hm)
    simp only [List.cons_append, splitOnChar, if_neg hx, List.append_eq, ih hxs]

theorem splitOnChar_joinWith {c : Char} {ps : List Str} (hne : ps ≠ [])
    (hfree : ∀ p ∈ ps, c ∉ p) :
    splitOnChar c (joinWith c ps) = ps := by
  induction ps with
  | nil => exact absurd rfl hne
  | cons p ps ih =>
    cases ps with
    | nil =>
      simp only [joinWith]
      exact splitOnChar_of_not_mem (hfree p (List.mem_cons_self p []))
    | cons q qs =>
      have hp : c ∉ p := hfree p (List.mem_cons_self p (q :: qs))
      have hrest : ∀ r ∈ q :: qs, c ∉ r := fun r hr =>
        hfree r (List.mem_cons_of_mem p hr)
      simp only [joinWith, splitOnChar_append_sep hp]
      rw [ih (by simp) hrest]

theorem splitOnChar_append_trailing (c : Char) (xs : Str) :
    splitOnChar c (xs ++ [c]) = splitOnChar c xs ++ [[]] := by
  induction xs with
  | nil => simp [splitOnChar]
  | cons x t ih =>
    by_cases hx : x = c
    · simp only [List.cons_append, splitOnChar, if_pos hx, List.append_eq, ih]
    · simp only [List.cons_append, splitOnChar, if_neg hx, List.append_eq, ih]
      rcases h : splitOnChar c t with _ | ⟨q, qs⟩
      · exact absurd h (splitOnChar_ne_nil c t)
      · simp [h]

theorem joinWith_splitOnChar (c : Char) (s : Str) :
    joinWith c (splitOnChar c s) = s := by
  induction s with
  | nil => simp [splitOnChar, joinWith]
  | cons x xs ih =>
    by_cases hx : x = c
    · subst hx
      simp only [splitOnChar, if_pos rfl]
      rcases h : splitOnChar x xs with _ | ⟨q, qs⟩
      · exact absurd h (splitOnChar_ne_nil x xs)
      · rw [h] at ih
        simp only [joinWith, List.nil_append, ih]
    · simp only [splitOnChar, if_neg hx]
      rcases h : splitOnChar c xs with _ | ⟨q, qs⟩
      · exact absurd h (splitOnChar_ne_nil c xs)
      · rw [h] at ih
        cases qs with
        | nil => simp only [joinWith] at ih ⊢; rw [ih]
        | cons r rs =>
          simp only [joinWith, List.cons_append] at ih ⊢
          rw [← ih]

theorem mem_joinWith_of_mem {c : Char} {ps : List Str} {p : Str} {x : Char}
    (hp : p ∈ ps) (hx : x ∈ p) : x ∈ joinWith c ps := by
  induction ps with
  | nil => exact absurd hp (List.not_mem_nil p)
  | cons q qs ih =>
    cases qs with
    | nil =>
      rcases List.mem_cons.mp hp with h | h
      · subst h; simpa [joinWith] using hx
      · exact absurd h (List.not_mem_nil p)
    | cons r rs =>
      simp only [joinWith]
      rcases List.mem_cons.mp hp with h | h
      · subst h; exact List.mem_append_left _ hx
      · exact List.mem_append_right _ (List.mem_cons_of_mem c (ih h))

theorem mem_of_mem_joinWith {c : Char} {ps : List Str} {x : Char}
    (hx : x ∈ joinWith c ps) : x = c ∨ ∃ p ∈ ps, x ∈ p := by
  induction ps with
  | nil => simp [joinWith] at hx
  | cons q qs ih =>
    cases qs with
    | nil =>
      simp only [joinWith] at hx
      exact Or.inr ⟨q, List.mem_cons_self q [], hx⟩
    | cons r rs =>
      simp only [joinWith] at hx
      rcases List.mem_append.mp hx with h | h
      · exact Or.inr ⟨q, List.mem_cons_self q (r :: rs), h⟩
      · rcases List.mem_cons.mp h with h1 | h1
        · exact Or.inl h1
        · rcases ih h1 with h2 | ⟨p, hp, hxp⟩
          · exact Or.inl h2
          · exact Or.inr ⟨p, List.mem_cons_of_mem q hp, hxp⟩

theorem mem_of_mem_splitOnChar {c : Char} {s p : Str} {x : Char}
    (hp : p ∈ splitOnChar c s) (hx : x ∈ p) : x ∈ s := by
  have h := joinWith_splitOnChar c s
  rw [← h]
  exact mem_joinWith_of_mem hp hx

theorem joinWith_cons_cons_ne_nil {c : Char} (p q : Str) (ps : List Str) :
    joinWith c (p :: q :: ps) ≠ [] := by
  simp [joinWith]

/-! ## The durable store scan: `loadAll` returns exactly the parsed documents
of the eligible, readable, well-formed entries, in order. -/

theorem loadAll_eq {α : Type} (parse : Str → Option α) (files : List DirEntry) :
    loadAll parse files =
      (files.filter (fun f => eligibleEntry f)).filterMap (fun f => f.content.bind parse) := by
  induction files with
  | nil => simp [loadAll]
  | cons f rest ih =>
    by_cases h1 : strEndsWith f.name jsonSuffix
    · by_cases h2 : hasSubstr tmpMarker.data f.name.data
      · simp [loadAll, eligibleEntry, h1, h2, ih]
      · rcases h3 : f.statSize with _ | n
        · simp [loadAll, eligibleEntry, h1, h2, h3, ih]
        · cases n with
          | zero => simp [loadAll, eligibleEntry, h1, h2, h3, ih]
          | succ m =>
            rcases h4 : f.content with _ | raw
            · simp [loadAll, eligibleEntry, h1, h2, h3, h4, ih]
            · rcases h5 : parse raw with _ | d
              · simp [loadAll, eligibleEntry, h1, h2, h3, h4, h5, ih]
              · simp [loadAll, eligibleEntry, h1, h2, h3, h4, h5, ih]
    · simp [loadAll, eligibleEntry, h1, ih]

/-- C8: `loadAll` returns the parsed documents of exactly the well-formed job
files — those with a `.json` name that is not a temp-convention name, a
successful non-zero `stat`, a successful read and a successful parse — and
any skipped entry (temp-named, zero-sized, unreadable or corrupt) is dropped
from the scan without disturbing the documents collected from the other
entries. -/
theorem claim8 {α : Type} (parse : Str → Option α) :
    (∀ (files : List DirEntry) (d : α),
        d ∈ loadAll parse files ↔
          ∃ f ∈ files, eligibleEntry f = true ∧
            ∃ raw, f.content = some raw ∧ parse raw = some d) ∧
    (∀ (xs ys : List DirEntry) (f : DirEntry), skippedEntry parse f →
        loadAll parse (xs ++ f :: ys) = loadAll parse (xs ++ ys)) := by
  constructor
  · intro files d
    rw [loadAll_eq]
    simp only [List.mem_filterMap, List.mem_filter, Option.bind_eq_some]
    constructor
    · rintro ⟨f, ⟨hmem, helig⟩, raw, hraw, hparse⟩
      exact ⟨f, hmem, helig, raw, hraw, hparse⟩
    · rintro ⟨f, hmem, helig, raw, hraw, hparse⟩
      exact ⟨f, ⟨hmem, helig⟩, raw, hraw, hparse⟩
  · intro xs ys f hskip
    rw [loadAll_eq, loadAll_eq]
    rcases hskip with h | h | ⟨raw, hraw, hparse⟩
    · simp [List.filter_append, h]
    · by_cases he : eligibleEntry f = true
      · simp [List.filter_append, List.filterMap_append, List.filter_cons, he, h]
      · simp [List.filter_append, List.filterMap_append, List.filter_cons, he]
    · by_cases he : eligibleEntry f = true
      · simp [List.filter_append, List.filterMap_append, List.filter_cons, he, hraw, hparse]
      · simp [List.filter_append, List.filterMap_append, List.filter_cons, he]

/-- C8 witness: a directory with a good entry, a corrupt entry and a temp
entry; the corrupt and temp entries are skipped without aborting the scan,
and the good entry's document is returned. -/
theorem claim8_witness :
    (skippedEntry c8Parse c8Corrupt ∧
      loadAll c8Parse ([c8Good] ++ c8Corrupt :: [c8Good]) =
        loadAll c8Parse ([c8Good] ++ [c8Good])) ∧
    (skippedEntry c8Parse c8Temp ∧
      loadAll c8Parse ([c8Good] ++ c8Temp :: [c8Good]) =
        loadAll c8Parse ([c8Good] ++ [c8Good])) ∧
    (0 ∈ loadAll c8Parse [c8Good, c8Corrupt] ↔
      ∃ f ∈ [c8Good, c8Corrupt], eligibleEntry f = true ∧
        ∃ raw, f.content = some raw ∧ c8Parse raw = some 0) :=
  ⟨⟨Or.inr (Or.inr ⟨("garbage").data, rfl, by decide⟩),
      (claim8 c8Parse).2 [c8Good] [c8Good] c8Corrupt
        (Or.inr (Or.inr ⟨("garbage").data, rfl, by decide⟩))⟩,
    ⟨Or.inl (by decide),
      (claim8 c8Parse).2 [c8Good] [c8Good] c8Temp (Or.inl (by decide))⟩,
    (claim8 c8Parse).1 [c8Good, c8Corrupt] 0⟩

/-! ## The generator retry/fallback protocol -/

theorem eaziRetryLoop_tried_le (h : Str → String) (env : GenEnv)
    (opts : EaziPayGenerationOptions) :
    ∀ fuel i, (eaziRetryLoop h env opts fuel i).httpTried ≤ fuel := by
  intro fuel
  induction fuel with
  | zero => intro i; simp [eaziRetryLoop]
  | succ f ih =>
    intro i
    simp only [eaziRetryLoop]
    rcases hg : httpGenerate h (env.attempts i) opts with m | r
    · simpa using Nat.succ_le_succ (ih (i + 1))
    · simp

theorem eaziRetryLoop_backoffs (h : Str → String) (env : GenEnv)
    (opts : EaziPayGenerationOptions) :
    ∀ fuel i, (eaziRetryLoop h env opts fuel i).backoffs =
      (List.range (eaziRetryLoop h env opts fuel i).backoffs.length).map
        (fun k => 40 * (i + k + 1)) := by
  intro fuel
  induction fuel with
  | zero => intro i; simp [eaziRetryLoop]
  | succ f ih =>
    intro i
    simp only [eaziRetryLoop]
    rcases hg : httpGenerate h (env.attempts i) opts with m | r
    · simp only [List.length_cons, List.range_succ_eq_map, List.map_cons, List.map_map]
      congr 1
      rw [ih (i + 1)]
      simp only [List.length_map, List.length_range]
      apply List.map_congr_left
      intro k _
      simp only [Function.comp]
      omega
    · simp

theorem eaziRetryLoop_exhausted (h : Str → String) (env : GenEnv)
    (opts : EaziPayGenerationOptions) :
    ∀ fuel i, (∀ k, k < fuel → isErrB (httpGenerate h (env.attempts (i + k)) opts) = true) →
      (eaziRetryLoop h env opts fuel i).result = directImport h env opts ∧
      (eaziRetryLoop h env opts fuel i).httpTried = fuel := by
  intro fuel
  induction fuel with
  | zero => intro i _; simp [eaziRetryLoop]
  | succ f ih =>
    intro i hall
    have h0 : isErrB (httpGenerate h (env.attempts i) opts) = true := by
      simpa using hall 0 (Nat.succ_pos f)
    simp only [eaziRetryLoop]
    rcases hg : httpGenerate h (env.attempts i) opts with m | r
    · have hrest : ∀ k, k < f →
          isErrB (httpGenerate h (env.attempts (i + 1 + k)) opts) = true := by
        intro k hk
        have := hall (k + 1) (Nat.succ_lt_succ hk)
        simpa [Nat.add_assoc, Nat.add_comm 1 k] using this
      have := ih (i + 1) hrest
      simp [this.1, this.2]
    · rw [hg] at h0
      simp [isErrB] at h0

/-- C7: with a primary endpoint configured, the generator capability attempts
the primary transport at most 4 times, with linearly increasing backoff
(`40·(k+1)` ms after the `k`-th failed attempt); once all 4 attempts fail the
primary path is abandoned in favour of the fallback path; and when no
fallback entry point (`GENERATOR_ENTRY`) is configured the invocation fails
with the fixed configuration-error message, which differs from every non-2xx
transport error message. -/
theorem claim7 (h : Str → String) (env : GenEnv) (url : String)
    (opts : EaziPayGenerationOptions) :
    (generateEaziPayWithRetry h env (some url) opts 4).httpTried ≤ 4 ∧
    ((generateEaziPayWithRetry h env (some url) opts 4).backoffs =
      (List.range (generateEaziPayWithRetry h env (some url) opts 4).backoffs.length).map
        (fun k => 40 * (k + 1))) ∧
    ((∀ k, k < 4 → isErrB (httpGenerate h (env.attempts k) opts) = true) →
      (generateEaziPayWithRetry h env (some url) opts 4).result = directImport h env opts ∧
      (generateEaziPayWithRetry h env (some url) opts 4).httpTried = 4) ∧
    (env.generatorEntry = none →
      (∀ k, k < 4 → isErrB (httpGenerate h (env.attempts k) opts) = true) →
      (generateEaziPayWithRetry h env (some url) opts 4).result =
        Except.error missingEntryMsg ∧
      ∀ status : Nat, missingEntryMsg ≠ genHttpErrorMsg status) := by
  refine ⟨?_, ?_, ?_, ?_⟩
  · simpa [generateEaziPayWithRetry] using eaziRetryLoop_tried_le h env opts 4 0
  · have := eaziRetryLoop_backoffs h env opts 4 0
    simpa [generateEaziPayWithRetry] using this
  · intro hall
    have := eaziRetryLoop_exhausted h env opts 4 0 (by simpa using hall)
    simpa [generateEaziPayWithRetry] using this
  · intro hentry hall
    have hex := eaziRetryLoop_exhausted h env opts 4 0 (by simpa using hall)
    constructor
    · rw [generateEaziPayWithRetry]
      rw [hex.1, directImport, hentry]
    · intro status hEq
      have hdata : missingEntryMsg.data = (genHttpErrorMsg status).data :=
        congrArg String.data hEq
      have hpre : ("Generator HTTP ").data = 'G' :: ("enerator HTTP ").data := by decide
      have hD : missingEntryMsg.data.head? = some 'D' := by decide
      rw [genHttpErrorMsg, String.data_append, hpre] at hdata
      rw [hdata] at hD
      simp at hD

/-- C7 witness: a failing endpoint and no configured entry point; all four
attempts fail, the fallback is taken and the configuration error surfaces. -/
theorem claim7_witness :
    (c7Env.generatorEntry = none ∧
      (∀ k, k < 4 → isErrB (httpGenerate cHash (c7Env.attempts k) c7Opts) = true)) ∧
    ((generateEaziPayWithRetry cHash c7Env (some c7Url) c7Opts 4).httpTried ≤ 4 ∧
      ((generateEaziPayWithRetry cHash c7Env (some c7Url) c7Opts 4).backoffs =
        (List.range
            (generateEaziPayWithRetry cHash c7Env (some c7Url) c7Opts 4).backoffs.length).map
          (fun k => 40 * (k + 1))) ∧
      ((∀ k, k < 4 → isErrB (httpGenerate cHash (c7Env.attempts k) c7Opts) = true) →
        (generateEaziPayWithRetry cHash c7Env (some c7Url) c7Opts 4).result =
          directImport cHash c7Env c7Opts ∧
        (generateEaziPayWithRetry cHash c7Env (some c7Url) c7Opts 4).httpTried = 4) ∧
      (c7Env.generatorEntry = none →
        (∀ k, k < 4 → isErrB (httpGenerate cHash (c7Env.attempts k) c7Opts) = true) →
        (generateEaziPayWithRetry cHash c7Env (some c7Url) c7Opts 4).result =
          Except.error missingEntryMsg ∧
        ∀ status : Nat, missingEntryMsg ≠ genHttpErrorMsg status)) :=
  ⟨⟨rfl, by decide⟩, claim7 cHash c7Env c7Url c7Opts⟩

/-! ## Deterministic stub mode of the report translation capability -/

/-- C9: in deterministic stub mode (test environment or forced stub), the
report-translation capability is a function of the requested row count alone:
two invocations with equal row counts return identical results — in
particular byte-identical XML bodies and therefore equal checksums — whatever
the URL, SUN override, processing date, retry bound or transport behaviour. -/
theorem claim9 (h : Str → String) (e1 e2 : DdicaEnv) (u1 u2 : Option String)
    (o1 o2 : DdicaGenerationOptions) (r1 r2 : Nat)
    (h1 : (e1.isTestEnv || e1.forceStub) = true)
    (h2 : (e2.isTestEnv || e2.forceStub) = true)
    (hrows : o1.rows = o2.rows) :
    generateDdicaWithRetry h e1 u1 o1 r1 = generateDdicaWithRetry h e2 u2 o2 r2 ∧
    ∃ d1 d2 : DdicaResult,
      generateDdicaWithRetry h e1 u1 o1 r1 = Except.ok d1 ∧
      generateDdicaWithRetry h e2 u2 o2 r2 = Except.ok d2 ∧
      d1.xmlContent = d2.xmlContent ∧ d1.checksumSha256 = d2.checksumSha256 := by
  have hs1 : generateDdicaWithRetry h e1 u1 o1 r1 =
      Except.ok { xmlContent := ddicaStubXml o1.rows,
                  checksumSha256 := h (ddicaStubXml o1.rows).data,
                  rows := o1.rows, filename := ddicaName, xmlPath := ddicaName } := by
    rw [generateDdicaWithRetry.eq_def, if_pos h1]
  have hs2 : generateDdicaWithRetry h e2 u2 o2 r2 =
      Except.ok { xmlContent := ddicaStubXml o2.rows,
                  checksumSha256 := h (ddicaStubXml o2.rows).data,
                  rows := o2.rows, filename := ddicaName, xmlPath := ddicaName } := by
    rw [generateDdicaWithRetry.eq_def, if_pos h2]
  constructor
  · rw [hs1, hs2, hrows]
  · exact ⟨_, _, hs1, hs2, by rw [hrows], by rw [hrows]⟩

/-- C9 witness: test mode versus forced stub, different URLs, overrides and
retry bounds, equal row counts — identical results. -/
theorem claim9_witness :
    ((c9EnvTest.isTestEnv || c9EnvTest.forceStub) = true ∧
      (c9EnvForced.isTestEnv || c9EnvForced.forceStub) = true ∧
      c9OptsA.rows = c9OptsB.rows) ∧
    (generateDdicaWithRetry cHash c9EnvTest none c9OptsA 4 =
        generateDdicaWithRetry cHash c9EnvForced (some c7Url) c9OptsB 1 ∧
      ∃ d1 d2 : DdicaResult,
        generateDdicaWithRetry cHash c9EnvTest none c9OptsA 4 = Except.ok d1 ∧
        generateDdicaWithRetry cHash c9EnvForced (some c7Url) c9OptsB 1 = Except.ok d2 ∧
        d1.xmlContent = d2.xmlContent ∧ d1.checksumSha256 = d2.checksumSha256) :=
  ⟨⟨rfl, rfl, rfl⟩,
    claim9 cHash c9EnvTest c9EnvForced none (some c7Url) c9OptsA c9OptsB 4 1 rfl rfl rfl⟩

/-! ## The packaging-stage patch of originating-account columns -/

theorem patchLine_def (sc an line : Str) :
    patchLine sc an line =
      joinWith ',' (if 3 ≤ (splitOnChar ',' line).length
        then ((splitOnChar ',' line).set 1 sc).set 2 an
        else splitOnChar ',' line) := rfl

theorem dropTrailingCR_mem {l : Str} {x : Char} (hx : x ∈ dropTrailingCR l) : x ∈ l := by
  unfold dropTrailingCR at hx
  split at hx
  · exact List.mem_of_mem_dropLast hx
  · exact hx

theorem csvLines_mem {content l : Str} (hl : l ∈ csvLines content) :
    l ≠ [] ∧ '\n' ∉ l := by
  unfold csvLines at hl
  rw [List.mem_filter] at hl
  obtain ⟨hmap, hne⟩ := hl
  rw [List.mem_map] at hmap
  obtain ⟨p, hp, rfl⟩ := hmap
  refine ⟨by simpa using hne, ?_⟩
  intro hx
  exact not_mem_of_mem_splitOnChar hp (dropTrailingCR_mem hx)

theorem patchLine_keeps_shape {sc an line : Str}
    (hscn : '\n' ∉ sc) (hann : '\n' ∉ an) (hlnn : '\n' ∉ line) (hlne : line ≠ []) :
    patchLine sc an line ≠ [] ∧ '\n' ∉ patchLine sc an line := by
  rw [patchLine_def]
  by_cases h3 : 3 ≤ (splitOnChar ',' line).length
  · rw [if_pos h3]
    have hlen : (((splitOnChar ',' line).set 1 sc).set 2 an).length =
        (splitOnChar ',' line).length := by simp
    have hfree : ∀ p ∈ ((splitOnChar ',' line).set 1 sc).set 2 an, '\n' ∉ p := by
      intro p hmem
      rcases List.mem_or_eq_of_mem_set hmem with hmem2 | rfl
      · rcases List.mem_or_eq_of_mem_set hmem2 with hmem3 | rfl
        · intro hx
          exact hlnn (mem_of_mem_splitOnChar hmem3 hx)
        · exact hscn
      · exact hann
    rcases hps : ((splitOnChar ',' line).set 1 sc).set 2 an with _ | ⟨p, _ | ⟨q, rest⟩⟩
    · rw [hps] at hlen; simp at hlen; omega
    · rw [hps] at hlen; simp at hlen; omega
    · constructor
      · exact joinWith_cons_cons_ne_nil p q rest
      · intro hx
        rcases mem_of_mem_joinWith hx with hc | ⟨r, hr, hxr⟩
        · simp at hc
        · exact hfree r (hps ▸ hr) hxr
  · rw [if_neg h3, joinWith_splitOnChar]
    exact ⟨hlne, hlnn⟩

theorem dataRows_patchCsv {sc an : Str} (content : Str)
    (hscn : '\n' ∉ sc) (hann : '\n' ∉ an) :
    dataRows (patchCsv sc an content) =
      ((csvLines content).map (patchLine sc an)).map (splitOnChar ',') := by
  unfold patchCsv dataRows
  rcases hls : (csvLines content).map (patchLine sc an) with _ | ⟨l0, ls⟩
  · simp [joinWith, splitOnChar]
  · have hmem : ∀ l ∈ l0 :: ls, l ≠ [] ∧ '\n' ∉ l := by
      intro l hl
      rw [← hls, List.mem_map] at hl
      obtain ⟨line, hline, rfl⟩ := hl
      obtain ⟨h1, h2⟩ := csvLines_mem hline
      exact patchLine_keeps_shape hscn hann h2 h1
    rw [splitOnChar_append_trailing,
      splitOnChar_joinWith (by simp) (fun p hp => (hmem p hp).2)]
    rw [List.filter_append]
    have hkeep : (l0 :: ls).filter (fun l => l ≠ []) = l0 :: ls :=
      List.filter_eq_self.mpr (fun a ha => by simpa using (hmem a ha).1)
    rw [hkeep]
    simp

theorem patchLine_row {sc an line : Str} {rows : List Str}
    (hscc : ',' ∉ sc) (hanc : ',' ∉ an)
    (hrow : rows = splitOnChar ',' (patchLine sc an line))
    (h3 : 3 ≤ rows.length) :
    rows[1]? = some sc ∧ rows[2]? = some an := by
  by_cases hp : 3 ≤ (splitOnChar ',' line).length
  · rw [patchLine_def, if_pos hp] at hrow
    have hfree : ∀ p ∈ ((splitOnChar ',' line).set 1 sc).set 2 an, ',' ∉ p := by
      intro p hmem
      rcases List.mem_or_eq_of_mem_set hmem with hmem2 | rfl
      · rcases List.mem_or_eq_of_mem_set hmem2 with hmem3 | rfl
        · exact not_mem_of_mem_splitOnChar hmem3
        · exact hscc
      · exact hanc
    have hlen : (((splitOnChar ',' line).set 1 sc).set 2 an).length =
        (splitOnChar ',' line).length := by simp
    have hne : ((splitOnChar ',' line).set 1 sc).set 2 an ≠ [] := by
      intro hnil
      rw [hnil] at hlen
      simp at hlen
      omega
    rw [splitOnChar_joinWith hne hfree] at hrow
    subst hrow
    rcases hq : splitOnChar ',' line with _ | ⟨a, _ | ⟨b, _ | ⟨d, t⟩⟩⟩
    · rw [hq] at hp; simp at hp
    · rw [hq] at hp; simp at hp
    · rw [hq] at hp; simp at hp
    · show (a :: sc :: an :: t)[1]? = some sc ∧ (a :: sc :: an :: t)[2]? = some an
      simp
  · rw [patchLine_def, if_neg hp, joinWith_splitOnChar] at hrow
    subst hrow
    exact absurd h3 hp

/-- C3 (amended): when a request carries an originating-account override with
a nonempty sort code and account number (free of separator and line-break
characters), the packaging stage patches columns 2 and 3 of every data row
having at least three columns of the on-disk EaziPay artifact, and records
the checksum recomputed from the patched content; the copy of the EaziPay
file inside the packaged archive, however, is taken from the original
`csvContent` and does not reflect the overridden values. -/
theorem claim3_amended (h : Str → String) (req : JobRequest) (su : SunFields)
    (sc an : String) (gen : EaziPayResult)
    (hsun : req.sun = some su) (hsc : su.sortCode = some sc)
    (han : su.accountNumber = some an)
    (hscne : sc.data ≠ []) (hanne : an.data ≠ [])
    (hscc : ',' ∉ sc.data) (hscn : '\n' ∉ sc.data)
    (hanc : ',' ∉ an.data) (hann : '\n' ∉ an.data) :
    diskCsvContent (packageStage h req gen) =
      some (patchCsv sc.data an.data gen.csvContent) ∧
    (∀ rows ∈ dataRows (patchCsv sc.data an.data gen.csvContent), 3 ≤ rows.length →
        rows[1]? = some sc.data ∧ rows[2]? = some an.data) ∧
    (packageStage h req gen).eazipayChecksum =
      h (patchCsv sc.data an.data gen.csvContent) ∧
    zipCsvContent (packageStage h req gen) = some gen.csvContent := by
  have hscE : sc.data.isEmpty = false := by
    cases hv : sc.data with
    | nil => exact absurd hv hscne
    | cons x xs => simp
  have hanE : an.data.isEmpty = false := by
    cases hv : an.data with
    | nil => exact absurd hv hanne
    | cons x xs => simp
  have hfc : finalCsv req gen = patchCsv sc.data an.data gen.csvContent := by
    rw [finalCsv.eq_def, hsun]
    simp only [hsc, han, hscE, hanE, Bool.false_or, Bool.or_self, if_neg]
    simp
  have hck : recomputedChecksum h req gen = h (patchCsv sc.data an.data gen.csvContent) := by
    rw [recomputedChecksum.eq_def, hsun]
    simp only [hsc, han, hscE, hanE, Bool.false_or, Bool.or_self, if_neg]
    simp
  refine ⟨?_, ?_, ?_, ?_⟩
  · simp [diskCsvContent, packageStage, hfc]
  · intro rows hrows h3
    rw [dataRows_patchCsv gen.csvContent hscn hann] at hrows
    rw [List.map_map, List.mem_map] at hrows
    obtain ⟨line, _, hline⟩ := hrows
    exact patchLine_row hscc hanc hline.symm h3
  · simp [packageStage, hck]
  · simp [zipCsvContent, packageStage]

/-- C3 counterexample: for the request carrying override sort code `111111`
and account number `22222222` and a generated file with one three-column row,
not every data row of the packaged artifact set reflects the overridden
values — the copy of the file inside the archive keeps the original columns. -/
theorem claim3_cex :
    ¬ (∀ entry ∈ (packageStage cHash c3Req c3Gen).zipEntries,
        ∀ rows ∈ csvRowsOf entry.2, 3 ≤ rows.length →
          rows[1]? = some (("111111").data) ∧ rows[2]? = some (("22222222").data)) := by
  decide

/-- C3 witness: the amended claim at the same concrete input — the disk copy
is patched, the checksum recomputed and the archive copy left original. -/
theorem claim3_witness :
    (c3Req.sun = some c3Sun ∧ c3Sun.sortCode = some ("111111") ∧
      c3Sun.accountNumber = some ("22222222") ∧
      ("111111").data ≠ [] ∧ ("22222222").data ≠ [] ∧
      ',' ∉ ("111111").data ∧ '\n' ∉ ("111111").data ∧
      ',' ∉ ("22222222").data ∧ '\n' ∉ ("22222222").data) ∧
    (diskCsvContent (packageStage cHash c3Req c3Gen) =
        some (patchCsv ("111111").data ("22222222").data c3Gen.csvContent) ∧
      (∀ rows ∈ dataRows (patchCsv ("111111").data ("22222222").data c3Gen.csvContent),
          3 ≤ rows.length →
          rows[1]? = some (("111111").data) ∧ rows[2]? = some (("22222222").data)) ∧
      (packageStage cHash c3Req c3Gen).eazipayChecksum =
        cHash (patchCsv ("111111").data ("22222222").data c3Gen.csvContent) ∧
      zipCsvContent (packageStage cHash c3Req c3Gen) = some c3Gen.csvContent) :=
  ⟨⟨rfl, rfl, rfl, by decide, by decide, by decide, by decide, by decide, by decide⟩,
    claim3_amended cHash c3Req c3Sun ("111111") ("22222222") c3Gen rfl rfl rfl
      (by decide) (by decide) (by decide) (by decide) (by decide) (by decide)⟩

/-! ## Scheduler and state-machine machinery -/

theorem applyAt_of_ne {i : Nat} {f : Job → Job} {j : Job} (h : ¬ j.id = i) :
    applyAt i f j = j := by simp [applyAt, h]

theorem applyAt_self {i : Nat} {f : Job → Job} {j : Job} (h : j.id = i) :
    applyAt i f j = f j := by simp [applyAt, h]

theorem map_applyAt_of_absent {i : Nat} {f : Job → Job} {l : List Job}
    (h : ∀ k ∈ l, ¬ k.id = i) : l.map (applyAt i f) = l := by
  have h2 : ∀ k ∈ l, applyAt i f k = k := fun k hk => applyAt_of_ne (h k hk)
  calc l.map (applyAt i f) = l.map id := List.map_congr_left h2
    _ = l := List.map_id l

theorem find?_split {α : Type} {p : α → Bool} {l : List α} {a : α}
    (h : l.find? p = some a) :
    ∃ l₁ l₂, l = l₁ ++ a :: l₂ ∧ ∀ x ∈ l₁, p x = false := by
  induction l with
  | nil => simp [List.find?] at h
  | cons x t ih =>
    by_cases hpx : p x = true
    · rw [List.find?_cons_of_pos _ hpx] at h
      obtain rfl : x = a := by injection h
      exact ⟨[], t, rfl, by simp⟩
    · rw [List.find?_cons_of_neg _ (by simpa using hpx)] at h
      obtain ⟨l₁, l₂, rfl, hneg⟩ := ih h
      refine ⟨x :: l₁, l₂, rfl, ?_⟩
      intro y hy
      rcases List.mem_cons.mp hy with rfl | hy2
      · simpa using hpx
      · exact hneg y hy2

theorem idsOrdered_eq_of_mem {l : List Job}
    (hord : List.Pairwise (fun a b => a.id < b.id) l)
    {a b : Job} (ha : a ∈ l) (hb : b ∈ l) (hid : a.id = b.id) : a = b := by
  induction l with
  | nil => simp at ha
  | cons x t ih =>
    rw [List.pairwise_cons] at hord
    rcases List.mem_cons.mp ha with rfl | ha2
    · rcases List.mem_cons.mp hb with rfl | hb2
      · rfl
      · have := hord.1 b hb2; omega
    · rcases List.mem_cons.mp hb with rfl | hb2
      · have := hord.1 a ha2; omega
      · exact ih hord.2 ha2 hb2

theorem findJob_eq_of_mem {s : SysState} {j : Job}
    (hord : List.Pairwise (fun a b => a.id < b.id) s.jobs) (hmem : j ∈ s.jobs) :
    findJob s j.id = some j := by
  have hsome : (s.jobs.find? (fun k => k.id == j.id)).isSome := by
    rw [List.find?_isSome]
    exact ⟨j, hmem, by simp⟩
  obtain ⟨k, hk⟩ := Option.isSome_iff_exists.mp hsome
  have hkmem := List.mem_of_find?_eq_some hk
  have hkid := List.find?_some hk
  have hkj : k = j := idsOrdered_eq_of_mem hord hkmem hmem (by simpa using hkid)
  rw [findJob, hk, hkj]

theorem runCountL_append (l₁ l₂ : List Job) :
    runCountL (l₁ ++ l₂) = runCountL l₁ + runCountL l₂ := by
  simp [runCountL, List.filter_append]

theorem runCountL_cons (j : Job) (l : List Job) :
    runCountL (j :: l) =
      (if j.state = JobState.running then 1 else 0) + runCountL l := by
  simp only [runCountL, List.filter_cons]
  by_cases h : j.state = JobState.running
  · simp [h, Nat.add_comm]
  · simp [h]

theorem updateJob_split {s : SysState} {i : Nat} {j : Job} (f : Job → Job)
    (hfind : findJob s i = some j)
    (hord : List.Pairwise (fun a b => a.id < b.id) s.jobs) :
    ∃ l₁ l₂, s.jobs = l₁ ++ j :: l₂ ∧ (updateJob s i f).jobs = l₁ ++ f j :: l₂ ∧
      j.id = i ∧ (∀ k ∈ l₁, ¬ k.id = i) ∧ (∀ k ∈ l₂, ¬ k.id = i) := by
  rw [findJob] at hfind
  obtain ⟨l₁, l₂, hsplit, hneg⟩ := find?_split hfind
  have hjid : j.id = i := by
    have := List.find?_some hfind
    simpa using this
  have h₁ : ∀ k ∈ l₁, ¬ k.id = i := by
    intro k hk heq
    have := hneg k hk
    simp [heq] at this
  have h₂ : ∀ k ∈ l₂, ¬ k.id = i := by
    intro k hk heq
    rw [hsplit] at hord
    have hp2 := (List.pairwise_append.mp hord).2.1
    rw [List.pairwise_cons] at hp2
    have hlt := hp2.1 k hk
    omega
  refine ⟨l₁, l₂, hsplit, ?_, hjid, h₁, h₂⟩
  show s.jobs.map (applyAt i f) = l₁ ++ f j :: l₂
  rw [hsplit, List.map_append, List.map_cons,
    map_applyAt_of_absent h₁, map_applyAt_of_absent h₂, applyAt_self hjid]

theorem inv_updateJob {c : Nat} {s : SysState} {i : Nat} {j : Job} {f : Job → Job}
    (hinv : Inv c s) (hfind : findJob s i = some j)
    (hid : (f j).id = j.id) (hwf : JobWF (f j))
    (hcnt : (f j).state = JobState.running →
      j.state = JobState.running ∨ runningCount s < c) :
    Inv c (updateJob s i f) := by
  obtain ⟨hc, hcount, ⟨hord, hbound⟩, hwfall⟩ := hinv
  obtain ⟨l₁, l₂, hsplit, hsplit', hjid, h₁, h₂⟩ := updateJob_split f hfind hord
  have hjmem : j ∈ s.jobs := by rw [hsplit]; exact List.mem_append_right l₁ (List.mem_cons_self j l₂)
  refine ⟨hc, ?_, ⟨?_, ?_⟩, ?_⟩
  · show runCountL (updateJob s i f).jobs ≤ c
    rw [hsplit']
    have hcount2 : runCountL s.jobs ≤ c := hcount
    rw [hsplit, runCountL_append, runCountL_cons] at hcount2
    rw [runCountL_append, runCountL_cons]
    by_cases hr : (f j).state = JobState.running
    · rcases hcnt hr with hjr | hlt
      · simp only [if_pos hr, if_pos hjr] at hcount2 ⊢
        omega
      · have hlt2 : runCountL s.jobs < c := hlt
        rw [hsplit, runCountL_append, runCountL_cons] at hlt2
        simp only [if_pos hr]
        by_cases hjr : j.state = JobState.running
        · simp only [if_pos hjr] at hcount2; omega
        · simp only [if_neg hjr] at hlt2; omega
    · simp only [if_neg hr]
      by_cases hjr : j.state = JobState.running
      · simp only [if_pos hjr] at hcount2; omega
      · simp only [if_neg hjr] at hcount2; omega
  · show List.Pairwise (fun a b => a.id < b.id) (updateJob s i f).jobs
    rw [hsplit']
    rw [hsplit, List.pairwise_append, List.pairwise_cons] at hord
    obtain ⟨hp₁, ⟨hhead, hp₂⟩, hcross⟩ := hord
    rw [List.pairwise_append, List.pairwise_cons]
    refine ⟨hp₁, ⟨?_, hp₂⟩, ?_⟩
    · intro b hb
      rw [hid]
      exact hhead b hb
    · intro a ha b hb
      rcases List.mem_cons.mp hb with rfl | hb2
      · rw [hid]
        exact hcross a ha j (List.mem_cons_self j l₂)
      · exact hcross a ha b (List.mem_cons_of_mem j hb2)
  · show ∀ k ∈ (updateJob s i f).jobs, k.id < s.nextId
    rw [hsplit']
    intro k hk
    rcases List.mem_append.mp hk with hk1 | hk2
    · exact hbound k (by rw [hsplit]; exact List.mem_append_left (j :: l₂) hk1)
    · rcases List.mem_cons.mp hk2 with rfl | hk3
      · rw [hid]
        exact hbound j hjmem
      · exact hbound k (by
          rw [hsplit]
          exact List.mem_append_right l₁ (List.mem_cons_of_mem j hk3))
  · intro k hk
    rw [hsplit'] at hk
    rcases List.mem_append.mp hk with hk1 | hk2
    · exact hwfall k (by rw [hsplit]; exact List.mem_append_left (j :: l₂) hk1)
    · rcases List.mem_cons.mp hk2 with rfl | hk3
      · exact hwf
      · exact hwfall k (by
          rw [hsplit]
          exact List.mem_append_right l₁ (List.mem_cons_of_mem j hk3))

/-! ## Per-record well-formedness through each operation -/

theorem jobWF_fresh (id : Nat) (req : JobRequest) : JobWF (freshJob id req) := by
  refine ⟨Or.inl rfl, fun _ => ⟨rfl, rfl, rfl, rfl⟩, ?_, ?_, ?_, ?_, ?_, ?_⟩
  · simp [freshJob]
  · simp [freshJob]
  · intro hc; exact absurd hc (by simp [freshJob])
  · intro hp; exact absurd hp (by simp [freshJob])
  · intro hp; exact absurd hp (by simp [freshJob])
  · intro hp; exact absurd hp (by simp [freshJob])

theorem jobWF_dispatchRun {j : Job} (hwf : JobWF j) (hst : j.state = JobState.pending) :
    JobWF { j with state := JobState.running,
                   pendingSaves := j.pendingSaves ++ [(JobState.running, j.progress)] } := by
  obtain ⟨hprog, hpend, hout, herr, hcomp, h20, h70, h100⟩ := hwf
  obtain ⟨hp0, herrn, houtn, hcrf⟩ := hpend hst
  refine ⟨Or.inl hp0, ?_, ?_, ?_, ?_, ?_, ?_, ?_⟩
  · intro hpd
    exact absurd hpd (by simp)
  · show j.output.isSome = true ↔
      (JobState.running = JobState.completed ∨
        (JobState.running = JobState.running ∧ j.progress = 100))
    rw [houtn]
    simp
    omega
  · show j.error.isSome = true ↔
      (JobState.running = JobState.failed ∨ j.cancelRequested = true)
    rw [herrn, hcrf]
    simp
  · intro hc; exact absurd hc (by simp)
  · intro hp; exact absurd (show 20 ≤ j.progress from hp) (by omega)
  · intro hp; exact absurd (show 70 ≤ j.progress from hp) (by omega)
  · intro hp; exact absurd (show 100 ≤ j.progress from hp) (by omega)

theorem jobWF_dispatchFail {j : Job} (e : JobError) (hwf : JobWF j)
    (hst : j.state = JobState.pending) :
    JobWF { j with state := JobState.failed,
                   error := some e,
                   pendingSaves := j.pendingSaves ++
                     [(JobState.running, j.progress), (JobState.failed, j.progress)] } := by
  obtain ⟨hprog, hpend, hout, herr, hcomp, h20, h70, h100⟩ := hwf
  obtain ⟨hp0, herrn, houtn, hcrf⟩ := hpend hst
  refine ⟨Or.inl hp0, ?_, ?_, ?_, ?_, ?_, ?_, ?_⟩
  · intro hpd; exact absurd hpd (by simp)
  · show j.output.isSome = true ↔
      (JobState.failed = JobState.completed ∨
        (JobState.failed = JobState.running ∧ j.progress = 100))
    rw [houtn]
    simp
  · show (some e).isSome = true ↔
      (JobState.failed = JobState.failed ∨ j.cancelRequested = true)
    simp
  · intro hc; exact absurd hc (by simp)
  · intro hp; exact absurd (show 20 ≤ j.progress from hp) (by omega)
  · intro hp; exact absurd (show 70 ≤ j.progress from hp) (by omega)
  · intro hp; exact absurd (show 100 ≤ j.progress from hp) (by omega)

theorem jobWF_stageMark {j : Job} {p : Nat} (hwf : JobWF j)
    (hst : j.state = JobState.running)
    (hcase : j.progress = 0 ∧ p = 20 ∨ j.progress = 20 ∧ p = 70) :
    JobWF { j with progress := p,
                   pendingSaves := j.pendingSaves ++ [(JobState.running, p)] } := by
  obtain ⟨hprog, hpend, hout, herr, hcomp, h20, h70, h100⟩ := hwf
  have houtf : j.output.isSome = false := by
    rw [Bool.eq_false_iff]
    intro ht
    rcases hout.mp ht with hc | ⟨_, hp100⟩
    · rw [hst] at hc; exact JobState.noConfusion hc
    · rcases hcase with ⟨h0, _⟩ | ⟨h0, _⟩ <;> omega
  refine ⟨?_, ?_, ?_, ?_, ?_, ?_, ?_, ?_⟩
  · rcases hcase with ⟨_, rfl⟩ | ⟨_, rfl⟩
    · exact Or.inr (Or.inl rfl)
    · exact Or.inr (Or.inr (Or.inl rfl))
  · intro hpd
    have hpd2 : j.state = JobState.pending := hpd
    rw [hst] at hpd2
    exact absurd hpd2 (fun hc => JobState.noConfusion hc)
  · show j.output.isSome = true ↔
      (j.state = JobState.completed ∨ (j.state = JobState.running ∧ p = 100))
    rw [houtf]
    simp only [Bool.false_eq_true, false_iff]
    rintro (hc | ⟨_, hp100⟩)
    · rw [hst] at hc; exact JobState.noConfusion hc
    · rcases hcase with ⟨_, rfl⟩ | ⟨_, rfl⟩ <;> omega
  · exact herr
  · intro hc
    exact absurd (show j.state = JobState.completed from hc)
      (by rw [hst]; exact fun hc2 => JobState.noConfusion hc2)
  · intro hp
    show (JobState.running, 20) ∈ j.pendingSaves ++ [(JobState.running, p)] ∨
      (JobState.running, 20) ∈ j.persisted
    rcases hcase with ⟨h0, rfl⟩ | ⟨h0, rfl⟩
    · exact Or.inl (List.mem_append_right _ (by simp))
    · rcases h20 (by omega) with hm | hm
      · exact Or.inl (List.mem_append_left _ hm)
      · exact Or.inr hm
  · intro hp
    have hp2 : 70 ≤ p := hp
    show (JobState.running, 70) ∈ j.pendingSaves ++ [(JobState.running, p)] ∨
      (JobState.running, 70) ∈ j.persisted
    rcases hcase with ⟨h0, rfl⟩ | ⟨h0, rfl⟩
    · omega
    · exact Or.inl (List.mem_append_right _ (by simp))
  · intro hp
    have hp2 : 100 ≤ p := hp
    rcases hcase with ⟨h0, rfl⟩ | ⟨h0, rfl⟩ <;> omega

theorem jobWF_setOutput {j : Job} (out : JobOutput) (hwf : JobWF j)
    (hst : j.state = JobState.running) (hp70 : j.progress = 70) :
    JobWF { j with output := some out, progress := 100,
                   pendingSaves := j.pendingSaves ++ [(JobState.running, 100)] } := by
  obtain ⟨hprog, hpend, hout, herr, hcomp, h20, h70, h100⟩ := hwf
  refine ⟨Or.inr (Or.inr (Or.inr rfl)), ?_, ?_, ?_, ?_, ?_, ?_, ?_⟩
  · intro hpd
    exact absurd (show j.state = JobState.pending from hpd)
      (by rw [hst]; exact fun hc => JobState.noConfusion hc)
  · show (some out).isSome = true ↔
      (j.state = JobState.completed ∨ (j.state = JobState.running ∧ (100 : Nat) = 100))
    simp [hst]
  · exact herr
  · intro hc
    exact absurd (show j.state = JobState.completed from hc)
      (by rw [hst]; exact fun hc2 => JobState.noConfusion hc2)
  · intro _
    show (JobState.running, 20) ∈ j.pendingSaves ++ [(JobState.running, 100)] ∨
      (JobState.running, 20) ∈ j.persisted
    rcases h20 (by omega) with hm | hm
    · exact Or.inl (List.mem_append_left _ hm)
    · exact Or.inr hm
  · intro _
    show (JobState.running, 70) ∈ j.pendingSaves ++ [(JobState.running, 100)] ∨
      (JobState.running, 70) ∈ j.persisted
    rcases h70 (by omega) with hm | hm
    · exact Or.inl (List.mem_append_left _ hm)
    · exact Or.inr hm
  · intro _
    show (JobState.running, 100) ∈ j.pendingSaves ++ [(JobState.running, 100)] ∨
      (JobState.running, 100) ∈ j.persisted
    exact Or.inl (List.mem_append_right _ (by simp))

theorem jobWF_complete {j : Job} (hwf : JobWF j)
    (hst : j.state = JobState.running) (hp100 : j.progress = 100) :
    JobWF { j with state := JobState.completed,
                   pendingSaves := j.pendingSaves ++ [(JobState.completed, j.progress)] } := by
  obtain ⟨hprog, hpend, hout, herr, hcomp, h20, h70, h100⟩ := hwf
  have houtt : j.output.isSome = true := hout.mpr (Or.inr ⟨hst, hp100⟩)
  refine ⟨hprog, ?_, ?_, ?_, ?_, ?_, ?_, ?_⟩
  · intro hpd; exact absurd hpd (by simp)
  · show j.output.isSome = true ↔
      (JobState.completed = JobState.completed ∨
        (JobState.completed = JobState.running ∧ j.progress = 100))
    rw [houtt]
    simp
  · show j.error.isSome = true ↔
      (JobState.completed = JobState.failed ∨ j.cancelRequested = true)
    rw [herr, hst]
    simp
  · intro _; exact hp100
  · intro hp
    rcases h20 hp with hm | hm
    · exact Or.inl (List.mem_append_left _ hm)
    · exact Or.inr hm
  · intro hp
    rcases h70 hp with hm | hm
    · exact Or.inl (List.mem_append_left _ hm)
    · exact Or.inr hm
  · intro hp
    rcases h100 hp with hm | hm
    · exact Or.inl (List.mem_append_left _ hm)
    · exact Or.inr hm

theorem jobWF_fail {j : Job} (e : JobError) (hwf : JobWF j)
    (hst : j.state = JobState.running) (hplt : j.progress = 20 ∨ j.progress = 70) :
    JobWF { j with state := JobState.failed,
                   error := some e,
                   pendingSaves := j.pendingSaves ++ [(JobState.failed, j.progress)] } := by
  obtain ⟨hprog, hpend, hout, herr, hcomp, h20, h70, h100⟩ := hwf
  have houtf : j.output.isSome = false := by
    rw [Bool.eq_false_iff]
    intro ht
    rcases hout.mp ht with hc | ⟨_, hp100⟩
    · rw [hst] at hc; exact JobState.noConfusion hc
    · omega
  refine ⟨hprog, ?_, ?_, ?_, ?_, ?_, ?_, ?_⟩
  · intro hpd; exact absurd hpd (by simp)
  · show j.output.isSome = true ↔
      (JobState.failed = JobState.completed ∨
        (JobState.failed = JobState.running ∧ j.progress = 100))
    rw [houtf]
    simp
  · show (some e).isSome = true ↔
      (JobState.failed = JobState.failed ∨ j.cancelRequested = true)
    simp
  · intro hc; exact absurd hc (by simp)
  · intro hp
    rcases h20 hp with hm | hm
    · exact Or.inl (List.mem_append_left _ hm)
    · exact Or.inr hm
  · intro hp
    rcases h70 hp with hm | hm
    · exact Or.inl (List.mem_append_left _ hm)
    · exact Or.inr hm
  · intro hp
    exact absurd (show 100 ≤ j.progress from hp) (by omega)

theorem jobWF_cancelPending {j : Job} (hwf : JobWF j)
    (hst : j.state = JobState.pending) :
    JobWF { j with state := JobState.failed,
                   error := some cancelledWhilePendingError,
                   persisted := j.persisted ++ j.pendingSaves ++ [(JobState.failed, j.progress)],
                   pendingSaves := [] } := by
  obtain ⟨hprog, hpend, hout, herr, hcomp, h20, h70, h100⟩ := hwf
  obtain ⟨hp0, herrn, houtn, hcrf⟩ := hpend hst
  refine ⟨Or.inl hp0, ?_, ?_, ?_, ?_, ?_, ?_, ?_⟩
  · intro hpd; exact absurd hpd (by simp)
  · show j.output.isSome = true ↔
      (JobState.failed = JobState.completed ∨
        (JobState.failed = JobState.running ∧ j.progress = 100))
    rw [houtn]
    simp
  · show (some cancelledWhilePendingError).isSome = true ↔
      (JobState.failed = JobState.failed ∨ j.cancelRequested = true)
    simp
  · intro hc; exact absurd hc (by simp)
  · intro hp; exact absurd (show 20 ≤ j.progress from hp) (by omega)
  · intro hp; exact absurd (show 70 ≤ j.progress from hp) (by omega)
  · intro hp; exact absurd (show 100 ≤ j.progress from hp) (by omega)

theorem jobWF_cancelRunning {j : Job} (hwf : JobWF j)
    (hst : j.state = JobState.running) :
    JobWF { j with cancelRequested := true,
                   error := some cancelRequestedError,
                   persisted := j.persisted ++ j.pendingSaves ++ [(JobState.running, j.progress)],
                   pendingSaves := [] } := by
  obtain ⟨hprog, hpend, hout, herr, hcomp, h20, h70, h100⟩ := hwf
  have hmove : ∀ snap, savesStarted j snap →
      snap ∈ ([] : List (JobState × Nat)) ∨
        snap ∈ j.persisted ++ j.pendingSaves ++ [(JobState.running, j.progress)] := by
    intro snap hs
    rcases hs with hm | hm
    · exact Or.inr (List.mem_append_left _ (List.mem_append_right _ hm))
    · exact Or.inr (List.mem_append_left _ (List.mem_append_left _ hm))
  refine ⟨hprog, ?_, ?_, ?_, ?_, ?_, ?_, ?_⟩
  · intro hpd
    exact absurd (show j.state = JobState.pending from hpd)
      (by rw [hst]; exact fun hc => JobState.noConfusion hc)
  · show j.output.isSome = true ↔
      (j.state = JobState.completed ∨ (j.state = JobState.running ∧ j.progress = 100))
    exact hout
  · show (some cancelRequestedError).isSome = true ↔
      (j.state = JobState.failed ∨ true = true)
    simp
  · intro hc
    exact absurd (show j.state = JobState.completed from hc)
      (by rw [hst]; exact fun hc2 => JobState.noConfusion hc2)
  · intro hp
    exact hmove _ (h20 hp)
  · intro hp
    exact hmove _ (h70 hp)
  · intro hp
    exact hmove _ (h100 hp)

theorem jobWF_flush {j : Job} {snap : JobState × Nat} {rest : List (JobState × Nat)}
    (hwf : JobWF j) (hq : j.pendingSaves = snap :: rest) :
    JobWF { j with pendingSaves := rest, persisted := j.persisted ++ [snap] } := by
  obtain ⟨hprog, hpend, hout, herr, hcomp, h20, h70, h100⟩ := hwf
  have hmove : ∀ sn, savesStarted j sn →
      sn ∈ rest ∨ sn ∈ j.persisted ++ [snap] := by
    intro sn hs
    rcases hs with hm | hm
    · rw [hq] at hm
      rcases List.mem_cons.mp hm with rfl | hm2
      · exact Or.inr (List.mem_append_right _ (by simp))
      · exact Or.inl hm2
    · exact Or.inr (List.mem_append_left _ hm)
  refine ⟨hprog, ?_, hout, herr, hcomp, ?_, ?_, ?_⟩
  · intro hpd
    obtain ⟨a, b, cc, d⟩ := hpend hpd
    exact ⟨a, b, cc, d⟩
  · intro hp; exact hmove _ (h20 hp)
  · intro hp; exact hmove _ (h70 hp)
  · intro hp; exact hmove _ (h100 hp)

/-! ## The invariant is preserved by every operation -/

theorem nextPending_mem {s : SysState} {j : Job} (h : nextPending s = some j) :
    j ∈ s.jobs :=
  List.mem_of_find?_eq_some h

theorem nextPending_state {s : SysState} {j : Job} (h : nextPending s = some j) :
    j.state = JobState.pending := by
  have := List.find?_some h
  simpa using this

theorem inv_dispatchRunning {c : Nat} {s : SysState} {j : Job} (hinv : Inv c s)
    (hj : nextPending s = some j) (hlt : runningCount s < c) :
    Inv c (dispatchRunning s j.id) := by
  have hmem : j ∈ s.jobs := nextPending_mem hj
  have hst : j.state = JobState.pending := nextPending_state hj
  have hord := hinv.2.2.1.1
  have hfind : findJob s j.id = some j := findJob_eq_of_mem hord hmem
  exact inv_updateJob hinv hfind rfl
    (jobWF_dispatchRun (hinv.2.2.2 j hmem) hst) (fun _ => Or.inr hlt)

theorem inv_dispatchFailed {c : Nat} {s : SysState} {j : Job} (hinv : Inv c s)
    (hj : nextPending s = some j) :
    Inv c (dispatchFailed s j.id) := by
  have hmem : j ∈ s.jobs := nextPending_mem hj
  have hst : j.state = JobState.pending := nextPending_state hj
  have hord := hinv.2.2.1.1
  have hfind : findJob s j.id = some j := findJob_eq_of_mem hord hmem
  exact inv_updateJob hinv hfind rfl
    (jobWF_dispatchFail _ (hinv.2.2.2 j hmem) hst)
    (fun h => absurd (show JobState.failed = JobState.running from h)
      (fun hc => JobState.noConfusion hc))

theorem inv_scheduleAux (c : Nat) (fuel : Nat) :
    ∀ (s : SysState), Inv c s → Inv c (scheduleAux fuel s) := by
  induction fuel with
  | zero => intro s hinv; exact hinv
  | succ f ih =>
    intro s hinv
    rw [scheduleAux]
    by_cases hg : s.concurrency ≤ runningCount s
    · rw [if_pos hg]; exact hinv
    · rw [if_neg hg]
      rcases hnp : nextPending s with _ | j
      · exact hinv
      · show Inv c (if j.request.fail = true then scheduleAux f (dispatchFailed s j.id)
          else dispatchRunning s j.id)
        have hlt : runningCount s < c := by
          have hc := hinv.1
          omega
        by_cases hf : j.request.fail
        · rw [if_pos hf]
          exact ih _ (inv_dispatchFailed hinv hnp)
        · rw [if_neg hf]
          exact inv_dispatchRunning hinv hnp hlt

theorem inv_schedule {c : Nat} {s : SysState} (hinv : Inv c s) : Inv c (schedule s) :=
  inv_scheduleAux c s.jobs.length s hinv

theorem inv_enqueuePre {c : Nat} {s : SysState} (req : JobRequest) (hinv : Inv c s) :
    Inv c { s with jobs := s.jobs ++ [freshJob s.nextId req], nextId := s.nextId + 1 } := by
  obtain ⟨hc, hcount, ⟨hord, hbound⟩, hwfall⟩ := hinv
  refine ⟨hc, ?_, ⟨?_, ?_⟩, ?_⟩
  · show runCountL (s.jobs ++ [freshJob s.nextId req]) ≤ c
    rw [runCountL_append]
    have h0 : runCountL [freshJob s.nextId req] = 0 := by
      simp [runCountL, freshJob, List.filter_cons]
    rw [h0]
    simpa using hcount
  · show List.Pairwise (fun a b => a.id < b.id) (s.jobs ++ [freshJob s.nextId req])
    rw [List.pairwise_append]
    refine ⟨hord, List.pairwise_singleton _ _, ?_⟩
    intro a ha b hb
    rcases List.mem_singleton.mp hb with rfl
    exact hbound a ha
  · intro k hk
    rcases List.mem_append.mp hk with hk1 | hk2
    · have := hbound k hk1
      simp only
      omega
    · rcases List.mem_singleton.mp hk2 with rfl
      simp [freshJob]
  · intro k hk
    rcases List.mem_append.mp hk with hk1 | hk2
    · exact hwfall k hk1
    · rcases List.mem_singleton.mp hk2 with rfl
      exact jobWF_fresh _ _

theorem inv_enqueue {c : Nat} {s : SysState} (req : JobRequest) (hinv : Inv c s) :
    Inv c (enqueue s req) :=
  inv_schedule (inv_enqueuePre req hinv)

theorem inv_failJob {c : Nat} {s : SysState} {id : Nat} {j : Job} (msg : String)
    (hinv : Inv c s) (hfind : findJob s id = some j)
    (hst : j.state = JobState.running) (hpl : j.progress = 20 ∨ j.progress = 70) :
    Inv c (failJob s id msg) := by
  have hmem : j ∈ s.jobs := by
    rw [findJob] at hfind
    exact List.mem_of_find?_eq_some hfind
  exact inv_schedule (inv_updateJob hinv hfind rfl
    (jobWF_fail _ (hinv.2.2.2 j hmem) hst hpl)
    (fun h => absurd (show JobState.failed = JobState.running from h)
      (fun hc => JobState.noConfusion hc)))

theorem inv_advanceJob {c : Nat} {s : SysState} (id : Nat) (res : Except String JobOutput)
    (hinv : Inv c s) : Inv c (advanceJob s id res) := by
  rcases hfind : findJob s id with _ | j
  · rw [advanceJob.eq_def, hfind]
    exact hinv
  · have heq : advanceJob s id res =
        (if j.state = JobState.running then
          if j.progress = 0 then stageMark s id 20
          else if j.progress = 20 then
            match res with
            | Except.ok _ => stageMark s id 70
            | Except.error m => failJob s id m
          else if j.progress = 70 then
            match res with
            | Except.ok out => setOutput s id out
            | Except.error m => failJob s id m
          else if j.progress = 100 then completeJob s id
          else s
        else s) := by
      rw [advanceJob.eq_def, hfind]
    rw [heq]
    have hmem : j ∈ s.jobs := by
      rw [findJob] at hfind
      exact List.mem_of_find?_eq_some hfind
    have hwfj := hinv.2.2.2 j hmem
    by_cases hst : j.state = JobState.running
    · rw [if_pos hst]
      by_cases h0 : j.progress = 0
      · rw [if_pos h0]
        exact inv_updateJob hinv hfind rfl
          (jobWF_stageMark hwfj hst (Or.inl ⟨h0, rfl⟩))
          (fun h => Or.inl h)
      · rw [if_neg h0]
        by_cases h20 : j.progress = 20
        · rw [if_pos h20]
          rcases res with m | out
          · exact inv_failJob m hinv hfind hst (Or.inl h20)
          · exact inv_updateJob hinv hfind rfl
              (jobWF_stageMark hwfj hst (Or.inr ⟨h20, rfl⟩))
              (fun h => Or.inl h)
        · rw [if_neg h20]
          by_cases h70 : j.progress = 70
          · rw [if_pos h70]
            rcases res with m | out
            · exact inv_failJob m hinv hfind hst (Or.inr h70)
            · exact inv_updateJob hinv hfind rfl
                (jobWF_setOutput out hwfj hst h70)
                (fun h => Or.inl h)
          · rw [if_neg h70]
            by_cases h100 : j.progress = 100
            · rw [if_pos h100]
              exact inv_updateJob hinv hfind rfl
                (jobWF_complete hwfj hst h100)
                (fun h => absurd (show JobState.completed = JobState.running from h)
                  (fun hc => JobState.noConfusion hc))
            · rw [if_neg h100]
              exact hinv
    · rw [if_neg hst]
      exact hinv

theorem inv_applyCancel {c : Nat} {s : SysState} (id : Nat) (hinv : Inv c s) :
    Inv c (applyCancel s id) := by
  rcases hfind : findJob s id with _ | j
  · rw [applyCancel.eq_def, hfind]
    exact hinv
  · have heq : applyCancel s id =
        (if j.state = JobState.pending then updateJob s id cancelPendingUpd
        else if j.state = JobState.running then updateJob s id cancelRunningUpd
        else s) := by
      rw [applyCancel.eq_def, hfind]
    rw [heq]
    have hmem : j ∈ s.jobs := by
      rw [findJob] at hfind
      exact List.mem_of_find?_eq_some hfind
    have hwfj := hinv.2.2.2 j hmem
    by_cases hpd : j.state = JobState.pending
    · rw [if_pos hpd]
      exact inv_updateJob hinv hfind rfl
        (jobWF_cancelPending hwfj hpd)
        (fun h => absurd (show JobState.failed = JobState.running from h)
          (fun hc => JobState.noConfusion hc))
    · rw [if_neg hpd]
      by_cases hrn : j.state = JobState.running
      · rw [if_pos hrn]
        exact inv_updateJob hinv hfind rfl
          (jobWF_cancelRunning hwfj hrn)
          (fun h => Or.inl h)
      · rw [if_neg hrn]
        exact hinv

theorem inv_flushOneSave {c : Nat} {s : SysState} (id : Nat) (hinv : Inv c s) :
    Inv c (flushOneSave s id) := by
  rcases hfind : findJob s id with _ | j
  · have hord := hinv.2.2.1.1
    have habs : ∀ k ∈ s.jobs, ¬ k.id = id := by
      intro k hk heq
      have h2 := findJob_eq_of_mem hord hk
      rw [heq, hfind] at h2
      exact Option.noConfusion h2
    have hjobs : (flushOneSave s id).jobs = s.jobs := map_applyAt_of_absent habs
    obtain ⟨hc, hcount, hords, hwfall⟩ := hinv
    refine ⟨hc, ?_, ⟨?_, ?_⟩, ?_⟩
    · show runCountL (flushOneSave s id).jobs ≤ c
      rw [hjobs]; exact hcount
    · show List.Pairwise (fun a b => a.id < b.id) (flushOneSave s id).jobs
      rw [hjobs]; exact hords.1
    · intro k hk
      rw [hjobs] at hk
      exact hords.2 k hk
    · intro k hk
      rw [hjobs] at hk
      exact hwfall k hk
  · have hmem : j ∈ s.jobs := by
      rw [findJob] at hfind
      exact List.mem_of_find?_eq_some hfind
    have hwfj := hinv.2.2.2 j hmem
    rcases hq : j.pendingSaves with _ | ⟨snap, rest⟩
    · apply inv_updateJob hinv hfind
      · simp [flushUpd, hq]
      · simpa [flushUpd, hq] using hwfj
      · intro h
        exact Or.inl (by simpa [flushUpd, hq] using h)
    · apply inv_updateJob hinv hfind
      · simp [flushUpd, hq]
      · simpa [flushUpd, hq] using jobWF_flush hwfj hq
      · intro h
        exact Or.inl (by simpa [flushUpd, hq] using h)

theorem inv_applyEvent {c : Nat} {s : SysState} (hinv : Inv c s) (e : Event) :
    Inv c (applyEvent s e) := by
  rcases e with req | ⟨id, res⟩ | id | id | _
  · exact inv_enqueue req hinv
  · exact inv_advanceJob id res hinv
  · exact inv_applyCancel id hinv
  · exact inv_flushOneSave id hinv
  · exact inv_schedule hinv

theorem inv_init (c : Nat) : Inv c (initState c) := by
  refine ⟨rfl, ?_, ⟨List.Pairwise.nil, ?_⟩, ?_⟩ <;>
    simp [initState, runningCount, runCountL]

theorem inv_applyTrace {c : Nat} (tr : List Event) :
    ∀ {s : SysState}, Inv c s → Inv c (applyTrace s tr) := by
  induction tr with
  | nil => intro s hinv; exact hinv
  | cons e t ih =>
    intro s hinv
    rw [applyTrace, List.foldl_cons]
    exact ih (inv_applyEvent hinv e)

theorem inv_reachable {c : Nat} {s : SysState} (h : Reachable c s) : Inv c s := by
  obtain ⟨tr, rfl⟩ := h
  exact inv_applyTrace tr (inv_init c)

/-! ## How a single record evolves along a run -/

theorem jobEvolves_refl (j : Job) : JobEvolves j j :=
  ⟨rfl, Nat.le_refl _, fun h => ⟨h, rfl, rfl, rfl⟩, fun h => h⟩

theorem jobEvolves_trans {a b d : Job} (h1 : JobEvolves a b) (h2 : JobEvolves b d) :
    JobEvolves a d := by
  obtain ⟨hid1, hp1, hf1, hc1⟩ := h1
  obtain ⟨hid2, hp2, hf2, hc2⟩ := h2
  refine ⟨hid2.trans hid1, Nat.le_trans hp1 hp2, ?_, fun h => hc2 (hc1 h)⟩
  intro hf
  obtain ⟨hbf, hbo, hbe, hbp⟩ := hf1 hf
  obtain ⟨hdf, hdo, hde, hdp⟩ := hf2 hbf
  exact ⟨hdf, hdo.trans hbo, hde.trans hbe, hdp.trans hbp⟩

theorem evolve_updateJob (f : Job → Job) {s : SysState} {i : Nat} {j : Job}
    (hord : List.Pairwise (fun a b => a.id < b.id) s.jobs)
    (hfind : findJob s i = some j) (hev : JobEvolves j (f j)) :
    ∀ k ∈ s.jobs, ∃ k', k' ∈ (updateJob s i f).jobs ∧ JobEvolves k k' := by
  obtain ⟨l₁, l₂, hsplit, hsplit', hjid, h₁, h₂⟩ := updateJob_split f hfind hord
  intro k hk
  rw [hsplit] at hk
  rcases List.mem_append.mp hk with hk1 | hk2
  · exact ⟨k, by rw [hsplit']; exact List.mem_append_left _ hk1, jobEvolves_refl k⟩
  · rcases List.mem_cons.mp hk2 with rfl | hk3
    · exact ⟨f k, by rw [hsplit']; exact List.mem_append_right _ (List.mem_cons_self _ _),
        hev⟩
    · exact ⟨k, by rw [hsplit']; exact List.mem_append_right _ (List.mem_cons_of_mem _ hk3),
        jobEvolves_refl k⟩

theorem jobEvolves_of_not_terminal {j : Job} (f : Job → Job)
    (hid : (f j).id = j.id) (hprog : j.progress ≤ (f j).progress)
    (hnf : j.state ≠ JobState.failed) (hnc : j.state ≠ JobState.completed) :
    JobEvolves j (f j) :=
  ⟨hid, hprog, fun h => absurd h hnf, fun h => absurd h hnc⟩

theorem evolve_dispatchRunning {s : SysState} {j : Job}
    (hord : List.Pairwise (fun a b => a.id < b.id) s.jobs)
    (hnp : nextPending s = some j) :
    ∀ k ∈ s.jobs, ∃ k', k' ∈ (dispatchRunning s j.id).jobs ∧ JobEvolves k k' := by
  have hst := nextPending_state hnp
  have hfind : findJob s j.id = some j := findJob_eq_of_mem hord (nextPending_mem hnp)
  refine evolve_updateJob runStartUpd hord hfind ?_
  exact jobEvolves_of_not_terminal runStartUpd rfl (Nat.le_refl _)
    (by rw [hst]; exact fun hc => JobState.noConfusion hc)
    (by rw [hst]; exact fun hc => JobState.noConfusion hc)

theorem evolve_dispatchFailed {s : SysState} {j : Job}
    (hord : List.Pairwise (fun a b => a.id < b.id) s.jobs)
    (hnp : nextPending s = some j) :
    ∀ k ∈ s.jobs, ∃ k', k' ∈ (dispatchFailed s j.id).jobs ∧ JobEvolves k k' := by
  have hst := nextPending_state hnp
  have hfind : findJob s j.id = some j := findJob_eq_of_mem hord (nextPending_mem hnp)
  refine evolve_updateJob dispatchFailUpd hord hfind ?_
  exact jobEvolves_of_not_terminal dispatchFailUpd rfl (Nat.le_refl _)
    (by rw [hst]; exact fun hc => JobState.noConfusion hc)
    (by rw [hst]; exact fun hc => JobState.noConfusion hc)

theorem evolve_scheduleAux (c : Nat) (fuel : Nat) :
    ∀ (s : SysState), Inv c s →
      ∀ k ∈ s.jobs, ∃ k', k' ∈ (scheduleAux fuel s).jobs ∧ JobEvolves k k' := by
  induction fuel with
  | zero => intro s _ k hk; exact ⟨k, hk, jobEvolves_refl k⟩
  | succ f ih =>
    intro s hinv k hk
    rw [scheduleAux]
    by_cases hg : s.concurrency ≤ runningCount s
    · rw [if_pos hg]; exact ⟨k, hk, jobEvolves_refl k⟩
    · rw [if_neg hg]
      rcases hnp : nextPending s with _ | j
      · exact ⟨k, hk, jobEvolves_refl k⟩
      · show ∃ k', k' ∈ (if j.request.fail = true then scheduleAux f (dispatchFailed s j.id)
          else dispatchRunning s j.id).jobs ∧ JobEvolves k k'
        have hord := hinv.2.2.1.1
        by_cases hf : j.request.fail
        · rw [if_pos hf]
          obtain ⟨k1, hk1, hev1⟩ := evolve_dispatchFailed hord hnp k hk
          obtain ⟨k2, hk2, hev2⟩ := ih _ (inv_dispatchFailed hinv hnp) k1 hk1
          exact ⟨k2, hk2, jobEvolves_trans hev1 hev2⟩
        · rw [if_neg hf]
          exact evolve_dispatchRunning hord hnp k hk

theorem evolve_schedule {c : Nat} {s : SysState} (hinv : Inv c s) :
    ∀ k ∈ s.jobs, ∃ k', k' ∈ (schedule s).jobs ∧ JobEvolves k k' :=
  evolve_scheduleAux c s.jobs.length s hinv

theorem evolve_enqueue {c : Nat} {s : SysState} (req : JobRequest) (hinv : Inv c s) :
    ∀ k ∈ s.jobs, ∃ k', k' ∈ (enqueue s req).jobs ∧ JobEvolves k k' := by
  intro k hk
  have hk2 : k ∈ (s.jobs ++ [freshJob s.nextId req]) := List.mem_append_left _ hk
  exact evolve_schedule (inv_enqueuePre req hinv) k hk2

theorem evolve_advanceJob {c : Nat} {s : SysState} (id : Nat)
    (res : Except String JobOutput) (hinv : Inv c s) :
    ∀ k ∈ s.jobs, ∃ k', k' ∈ (advanceJob s id res).jobs ∧ JobEvolves k k' := by
  intro k hk
  have hord := hinv.2.2.1.1
  rcases hfind : findJob s id with _ | j
  · rw [advanceJob.eq_def, hfind]
    exact ⟨k, hk, jobEvolves_refl k⟩
  · have heq : advanceJob s id res =
        (if j.state = JobState.running then
          if j.progress = 0 then stageMark s id 20
          else if j.progress = 20 then
            match res with
            | Except.ok _ => stageMark s id 70
            | Except.error m => failJob s id m
          else if j.progress = 70 then
            match res with
            | Except.ok out => setOutput s id out
            | Except.error m => failJob s id m
          else if j.progress = 100 then completeJob s id
          else s
        else s) := by
      rw [advanceJob.eq_def, hfind]
    rw [heq]
    have hnf : j.state = JobState.running → j.state ≠ JobState.failed := by
      intro h hc; rw [h] at hc; exact JobState.noConfusion hc
    have hnc : j.state = JobState.running → j.state ≠ JobState.completed := by
      intro h hc; rw [h] at hc; exact JobState.noConfusion hc
    by_cases hst : j.state = JobState.running
    · rw [if_pos hst]
      by_cases h0 : j.progress = 0
      · rw [if_pos h0]
        refine evolve_updateJob (stageMarkUpd 20) hord hfind ?_ k hk
        exact jobEvolves_of_not_terminal (stageMarkUpd 20) rfl
          (by simp [stageMarkUpd, h0]) (hnf hst) (hnc hst)
      · rw [if_neg h0]
        by_cases h20 : j.progress = 20
        · rw [if_pos h20]
          rcases res with m | out
          · -- failJob: inner update then schedule
            obtain ⟨k1, hk1, hev1⟩ := evolve_updateJob (failUpd m) hord hfind
              (jobEvolves_of_not_terminal (failUpd m) rfl (Nat.le_refl _)
                (hnf hst) (hnc hst)) k hk
            have hinv1 : Inv c (updateJob s id (failUpd m)) := inv_updateJob hinv hfind rfl
              (jobWF_fail _ (hinv.2.2.2 j (by
                rw [findJob] at hfind
                exact List.mem_of_find?_eq_some hfind)) hst (Or.inl h20))
              (fun h => absurd (show JobState.failed = JobState.running from h)
                (fun hc => JobState.noConfusion hc))
            obtain ⟨k2, hk2, hev2⟩ := evolve_schedule hinv1 k1 hk1
            exact ⟨k2, hk2, jobEvolves_trans hev1 hev2⟩
          · refine evolve_updateJob (stageMarkUpd 70) hord hfind ?_ k hk
            exact jobEvolves_of_not_terminal (stageMarkUpd 70) rfl
              (by simp [stageMarkUpd, h20]) (hnf hst) (hnc hst)
        · rw [if_neg h20]
          by_cases h70 : j.progress = 70
          · rw [if_pos h70]
            rcases res with m | out
            · obtain ⟨k1, hk1, hev1⟩ := evolve_updateJob (failUpd m) hord hfind
                (jobEvolves_of_not_terminal (failUpd m) rfl (Nat.le_refl _)
                  (hnf hst) (hnc hst)) k hk
              have hinv1 : Inv c (updateJob s id (failUpd m)) := inv_updateJob hinv hfind rfl
                (jobWF_fail _ (hinv.2.2.2 j (by
                  rw [findJob] at hfind
                  exact List.mem_of_find?_eq_some hfind)) hst (Or.inr h70))
                (fun h => absurd (show JobState.failed = JobState.running from h)
                  (fun hc => JobState.noConfusion hc))
              obtain ⟨k2, hk2, hev2⟩ := evolve_schedule hinv1 k1 hk1
              exact ⟨k2, hk2, jobEvolves_trans hev1 hev2⟩
            · refine evolve_updateJob (setOutputUpd out) hord hfind ?_ k hk
              exact jobEvolves_of_not_terminal (setOutputUpd out) rfl
                (by simp [setOutputUpd, h70]) (hnf hst) (hnc hst)
          · rw [if_neg h70]
            by_cases h100 : j.progress = 100
            · rw [if_pos h100]
              refine evolve_updateJob completeUpd hord hfind ?_ k hk
              exact jobEvolves_of_not_terminal completeUpd rfl (Nat.le_refl _)
                (hnf hst) (hnc hst)
            · rw [if_neg h100]
              exact ⟨k, hk, jobEvolves_refl k⟩
    · rw [if_neg hst]
      exact ⟨k, hk, jobEvolves_refl k⟩

theorem evolve_applyCancel {c : Nat} {s : SysState} (id : Nat) (hinv : Inv c s) :
    ∀ k ∈ s.jobs, ∃ k', k' ∈ (applyCancel s id).jobs ∧ JobEvolves k k' := by
  intro k hk
  have hord := hinv.2.2.1.1
  rcases hfind : findJob s id with _ | j
  · rw [applyCancel.eq_def, hfind]
    exact ⟨k, hk, jobEvolves_refl k⟩
  · have heq : applyCancel s id =
        (if j.state = JobState.pending then updateJob s id cancelPendingUpd
        else if j.state = JobState.running then updateJob s id cancelRunningUpd
        else s) := by
      rw [applyCancel.eq_def, hfind]
    rw [heq]
    by_cases hpd : j.state = JobState.pending
    · rw [if_pos hpd]
      refine evolve_updateJob cancelPendingUpd hord hfind ?_ k hk
      exact jobEvolves_of_not_terminal cancelPendingUpd rfl (Nat.le_refl _)
        (by rw [hpd]; exact fun hc => JobState.noConfusion hc)
        (by rw [hpd]; exact fun hc => JobState.noConfusion hc)
    · rw [if_neg hpd]
      by_cases hrn : j.state = JobState.running
      · rw [if_pos hrn]
        refine evolve_updateJob cancelRunningUpd hord hfind ?_ k hk
        exact jobEvolves_of_not_terminal cancelRunningUpd rfl (Nat.le_refl _)
          (by rw [hrn]; exact fun hc => JobState.noConfusion hc)
          (by rw [hrn]; exact fun hc => JobState.noConfusion hc)
      · rw [if_neg hrn]
        exact ⟨k, hk, jobEvolves_refl k⟩

theorem evolve_flushOneSave {c : Nat} {s : SysState} (id : Nat) (hinv : Inv c s) :
    ∀ k ∈ s.jobs, ∃ k', k' ∈ (flushOneSave s id).jobs ∧ JobEvolves k k' := by
  intro k hk
  have hord := hinv.2.2.1.1
  rcases hfind : findJob s id with _ | j
  · have habs : ∀ kk ∈ s.jobs, ¬ kk.id = id := by
      intro kk hkk heq
      have h2 := findJob_eq_of_mem hord hkk
      rw [heq, hfind] at h2
      exact Option.noConfusion h2
    have hjobs : (flushOneSave s id).jobs = s.jobs := map_applyAt_of_absent habs
    rw [hjobs]
    exact ⟨k, hk, jobEvolves_refl k⟩
  · refine evolve_updateJob flushUpd hord hfind ?_ k hk
    rcases hq : j.pendingSaves with _ | ⟨snap, rest⟩
    · refine ⟨by simp [flushUpd, hq], by simp [flushUpd, hq], ?_, ?_⟩
      · intro h
        refine ⟨by simpa [flushUpd, hq] using h, by simp [flushUpd, hq],
          by simp [flushUpd, hq], by simp [flushUpd, hq]⟩
      · intro h
        simpa [flushUpd, hq] using h
    · refine ⟨by simp [flushUpd, hq], by simp [flushUpd, hq], ?_, ?_⟩
      · intro h
        refine ⟨by simpa [flushUpd, hq] using h, by simp [flushUpd, hq],
          by simp [flushUpd, hq], by simp [flushUpd, hq]⟩
      · intro h
        simpa [flushUpd, hq] using h

theorem evolve_applyEvent {c : Nat} {s : SysState} (hinv : Inv c s) (e : Event) :
    ∀ k ∈ s.jobs, ∃ k', k' ∈ (applyEvent s e).jobs ∧ JobEvolves k k' := by
  rcases e with req | ⟨id, res⟩ | id | id | _
  · exact evolve_enqueue req hinv
  · exact evolve_advanceJob id res hinv
  · exact evolve_applyCancel id hinv
  · exact evolve_flushOneSave id hinv
  · exact evolve_schedule hinv

theorem evolve_applyTrace {c : Nat} (tr : List Event) :
    ∀ {s : SysState}, Inv c s →
      ∀ k ∈ s.jobs, ∃ k', k' ∈ (applyTrace s tr).jobs ∧ JobEvolves k k' := by
  induction tr with
  | nil => intro s _ k hk; exact ⟨k, hk, jobEvolves_refl k⟩
  | cons e t ih =>
    intro s hinv k hk
    rw [applyTrace, List.foldl_cons]
    obtain ⟨k1, hk1, hev1⟩ := evolve_applyEvent hinv e k hk
    obtain ⟨k2, hk2, hev2⟩ := ih (inv_applyEvent hinv e) k1 hk1
    exact ⟨k2, hk2, jobEvolves_trans hev1 hev2⟩

/-! ## The claims about the job manager -/

/-- C1 counterexample: submit a job (it is dispatched at once) and call
`cancel` on it while it runs; the reachable state holds a record in state
`running` that carries an `error`, so `error` present does not imply state
`failed`. -/
theorem claim1_cex :
    Reachable 2 c1State ∧
    ¬ (∀ j ∈ c1State.jobs,
        (j.output.isSome = true ↔ j.state = JobState.completed) ∧
        (j.error.isSome = true ↔ j.state = JobState.failed)) :=
  ⟨⟨c1Trace, rfl⟩, by decide⟩

/-- C1 (amended): for every reachable job record, `output` is present exactly
when the job is `completed` or is a `running` job past the final packaging
checkpoint (progress 100, before the completion block runs); `error` is
present exactly when the job is `failed` or a cancellation was requested
while it was running; and no `pending` job carries an `error` or an
`output`. -/
theorem claim1_amended (c : Nat) (s : SysState) (hs : Reachable c s) :
    ∀ j ∈ s.jobs,
      (j.output.isSome = true ↔ (j.state = JobState.completed ∨
        (j.state = JobState.running ∧ j.progress = 100))) ∧
      (j.error.isSome = true ↔
        (j.state = JobState.failed ∨ j.cancelRequested = true)) ∧
      (j.state = JobState.pending → j.error = none ∧ j.output = none) := by
  intro j hj
  obtain ⟨_, _, _, hwfall⟩ := inv_reachable hs
  obtain ⟨_, hpend, hout, herr, _, _, _, _⟩ := hwfall j hj
  exact ⟨hout, herr, fun h => ⟨(hpend h).2.1, (hpend h).2.2.1⟩⟩

/-- C1 witness: the amended claim at the state of the counterexample trace. -/
theorem claim1_witness :
    Reachable 2 c1State ∧
    (∀ j ∈ c1State.jobs,
      (j.output.isSome = true ↔ (j.state = JobState.completed ∨
        (j.state = JobState.running ∧ j.progress = 100))) ∧
      (j.error.isSome = true ↔
        (j.state = JobState.failed ∨ j.cancelRequested = true)) ∧
      (j.state = JobState.pending → j.error = none ∧ j.output = none)) :=
  ⟨⟨c1Trace, rfl⟩, claim1_amended 2 c1State ⟨c1Trace, rfl⟩⟩

/-- C2: in every reachable state the number of `running` jobs never exceeds
the configured concurrency, and the scheduler's selection (`nextPending`, the
first `pending` record in insertion order) is first-created-first-dispatched:
every record created earlier than the selected one is not `pending`. -/
theorem claim2 (c : Nat) (s : SysState) (hs : Reachable c s) :
    runningCount s ≤ c ∧
    (∀ j, nextPending s = some j →
      ∀ k ∈ s.jobs, k.id < j.id → k.state ≠ JobState.pending) := by
  obtain ⟨hc, hcount, ⟨hord, _⟩, _⟩ := inv_reachable hs
  refine ⟨hcount, ?_⟩
  intro j hnp k hk hklt hkpd
  rw [nextPending] at hnp
  obtain ⟨l₁, l₂, hsplit, hneg⟩ := find?_split hnp
  rw [hsplit] at hk hord
  rcases List.mem_append.mp hk with hk1 | hk2
  · have hx := hneg k hk1
    rw [hkpd] at hx
    simp at hx
  · rcases List.mem_cons.mp hk2 with rfl | hk3
    · omega
    · have hp2 := (List.pairwise_append.mp hord).2.1
      rw [List.pairwise_cons] at hp2
      have := hp2.1 k hk3
      omega

/-- C2 witness: a burst of three submissions under concurrency 2. -/
theorem claim2_witness :
    Reachable 2 c2State ∧
    (runningCount c2State ≤ 2 ∧
      (∀ j, nextPending c2State = some j →
        ∀ k ∈ c2State.jobs, k.id < j.id → k.state ≠ JobState.pending)) :=
  ⟨⟨c2Trace, rfl⟩, claim2 2 c2State ⟨c2Trace, rfl⟩⟩

/-- C4 counterexample: submit a job and let it pass the first two pipeline
checkpoints while no store write completes; the reachable state holds a
record at progress 70 (stage 2 ran) whose stage-1 progress write has not been
persisted — the pipeline does not wait for the write to complete. -/
theorem claim4_cex :
    Reachable 2 c4State ∧
    ¬ (∀ j ∈ c4State.jobs, 20 < j.progress →
        (JobState.running, 20) ∈ j.persisted) :=
  ⟨⟨c4Trace, rfl⟩, by decide⟩

/-- C4 (amended): the persistence write recording each stage's progress is
started (`void jobStore.save`) before the pipeline proceeds: in every
reachable state, for every record and every checkpoint it has passed, a store
write of that checkpoint has been started — but its completion is not
awaited. -/
theorem claim4_amended (c : Nat) (s : SysState) (hs : Reachable c s) :
    ∀ j ∈ s.jobs,
      (20 ≤ j.progress → savesStarted j (JobState.running, 20)) ∧
      (70 ≤ j.progress → savesStarted j (JobState.running, 70)) ∧
      (100 ≤ j.progress → savesStarted j (JobState.running, 100)) := by
  intro j hj
  obtain ⟨_, _, _, hwfall⟩ := inv_reachable hs
  obtain ⟨_, _, _, _, _, h20, h70, h100⟩ := hwfall j hj
  exact ⟨h20, h70, h100⟩

/-- C4 witness: the amended claim at the state of the counterexample trace. -/
theorem claim4_witness :
    Reachable 2 c4State ∧
    (∀ j ∈ c4State.jobs,
      (20 ≤ j.progress → savesStarted j (JobState.running, 20)) ∧
      (70 ≤ j.progress → savesStarted j (JobState.running, 70)) ∧
      (100 ≤ j.progress → savesStarted j (JobState.running, 100))) :=
  ⟨⟨c4Trace, rfl⟩, claim4_amended 2 c4State ⟨c4Trace, rfl⟩⟩

/-- C5: in every reachable state every record's progress lies within 0–100
and equals exactly 100 when the job is `completed`; and along any further
event sequence a record's progress never decreases. -/
theorem claim5 (c : Nat) (s : SysState) (hs : Reachable c s) :
    (∀ j ∈ s.jobs, j.progress ≤ 100 ∧
      (j.state = JobState.completed → j.progress = 100)) ∧
    (∀ (tr : List Event) (j j' : Job), j ∈ s.jobs → j' ∈ (applyTrace s tr).jobs →
      j'.id = j.id → j.progress ≤ j'.progress) := by
  have hinv := inv_reachable hs
  constructor
  · intro j hj
    obtain ⟨hprog, _, _, _, hcomp, _, _, _⟩ := hinv.2.2.2 j hj
    exact ⟨by omega, hcomp⟩
  · intro tr j j' hj hj' hid
    obtain ⟨k', hk', hev⟩ := evolve_applyTrace tr hinv j hj
    have hinv' := inv_applyTrace tr hinv
    have hjk : j' = k' :=
      idsOrdered_eq_of_mem hinv'.2.2.1.1 hj' hk' (by rw [hid, hev.1])
    rw [hjk]
    exact hev.2.1

/-- C5 witness: the burst state, extended by one pipeline step. -/
theorem claim5_witness :
    Reachable 2 c2State ∧
    ((∀ j ∈ c2State.jobs, j.progress ≤ 100 ∧
        (j.state = JobState.completed → j.progress = 100)) ∧
      (∀ (tr : List Event) (j j' : Job), j ∈ c2State.jobs →
        j' ∈ (applyTrace c2State tr).jobs → j'.id = j.id →
        j.progress ≤ j'.progress)) :=
  ⟨⟨c2Trace, rfl⟩, claim5 2 c2State ⟨c2Trace, rfl⟩⟩

theorem find?_append_of_false {α : Type} {p : α → Bool} {l₁ l₂ : List α}
    (h : ∀ x ∈ l₁, p x = false) : (l₁ ++ l₂).find? p = l₂.find? p := by
  induction l₁ with
  | nil => simp
  | cons x t ih =>
    have hx := h x (List.mem_cons_self x t)
    rw [List.cons_append, List.find?_cons_of_neg _ (by simp [hx])]
    exact ih (fun y hy => h y (List.mem_cons_of_mem x hy))

theorem findJob_updateJob {s : SysState} {i : Nat} {j : Job} (f : Job → Job)
    (hord : List.Pairwise (fun a b => a.id < b.id) s.jobs)
    (hfind : findJob s i = some j) (hid : (f j).id = j.id) :
    findJob (updateJob s i f) i = some (f j) := by
  obtain ⟨l₁, l₂, hsplit, hsplit', hjid, h₁, h₂⟩ := updateJob_split f hfind hord
  rw [findJob]
  rw [hsplit']
  rw [find?_append_of_false (fun x hx => by simp [h₁ x hx])]
  rw [List.find?_cons_of_pos _ (by simp [hid, hjid])]

/-- C6: in every reachable state, `cancel` of a `pending` job reports
success, moves the record directly to `failed` with the cancellation-specific
error code `JOB_CANCELLED`, persists the failed record (the write is
awaited), leaves it without `output`, and along any further event sequence
the record stays `failed` and never acquires an `output`; `cancel` of a job
already `completed` or `failed` reports it as not cancellable. -/
theorem claim6 (c : Nat) (s : SysState) (hs : Reachable c s) (id : Nat) (j : Job)
    (hfind : findJob s id = some j) :
    (j.state = JobState.pending →
      cancelResult s id = true ∧
      findJob (applyCancel s id) id = some (cancelPendingUpd j) ∧
      (cancelPendingUpd j).state = JobState.failed ∧
      (cancelPendingUpd j).error = some cancelledWhilePendingError ∧
      (cancelPendingUpd j).output = none ∧
      (JobState.failed, j.progress) ∈ (cancelPendingUpd j).persisted ∧
      (∀ (tr : List Event) (j' : Job),
        j' ∈ (applyTrace (applyCancel s id) tr).jobs → j'.id = id →
          j'.state = JobState.failed ∧ j'.output = none)) ∧
    ((j.state = JobState.completed ∨ j.state = JobState.failed) →
      cancelResult s id = false) := by
  have hinv := inv_reachable hs
  have hord := hinv.2.2.1.1
  have hmem : j ∈ s.jobs := by
    rw [findJob] at hfind
    exact List.mem_of_find?_eq_some hfind
  constructor
  · intro hpd
    have houtn : j.output = none := ((hinv.2.2.2 j hmem).2.1 hpd).2.2.1
    have hcanceq : applyCancel s id = updateJob s id cancelPendingUpd := by
      rw [applyCancel.eq_def, hfind]
      show (if j.state = JobState.pending then updateJob s id cancelPendingUpd
        else if j.state = JobState.running then updateJob s id cancelRunningUpd
        else s) = updateJob s id cancelPendingUpd
      rw [if_pos hpd]
    refine ⟨?_, ?_, rfl, rfl, ?_, ?_, ?_⟩
    · rw [cancelResult.eq_def, hfind]
      show (j.state == JobState.pending || j.state == JobState.running) = true
      rw [hpd]
      rfl
    · rw [hcanceq]
      exact findJob_updateJob cancelPendingUpd hord hfind rfl
    · show j.output = none
      exact houtn
    · show (JobState.failed, j.progress) ∈
        j.persisted ++ j.pendingSaves ++ [(JobState.failed, j.progress)]
      simp
    · intro tr j' hj' hid'
      have hinv1 : Inv c (applyCancel s id) := inv_applyCancel id hinv
      obtain ⟨l₁, l₂, hsplit, hsplit', hjid, h₁, h₂⟩ :=
        updateJob_split cancelPendingUpd hfind hord
      have hcmem : cancelPendingUpd j ∈ (applyCancel s id).jobs := by
        rw [hcanceq, hsplit']
        exact List.mem_append_right _ (List.mem_cons_self _ _)
      obtain ⟨k', hk', hev⟩ := evolve_applyTrace tr hinv1 (cancelPendingUpd j) hcmem
      obtain ⟨hkf, hko, hke, hkp⟩ := hev.2.2.1 rfl
      have hinv2 := inv_applyTrace tr hinv1
      have hk'id : k'.id = id := by
        rw [hev.1]
        exact hjid
      have hjeq : j' = k' :=
        idsOrdered_eq_of_mem hinv2.2.2.1.1 hj' hk' (by rw [hid', hk'id])
      rw [hjeq]
      exact ⟨hkf, hko.trans houtn⟩
  · intro hterm
    rw [cancelResult.eq_def, hfind]
    show (j.state == JobState.pending || j.state == JobState.running) = false
    rcases hterm with h | h <;> rw [h] <;> rfl

/-- C6 witness: the pending third job of the burst state. -/
theorem claim6_witness :
    (Reachable 2 c2State ∧ findJob c2State 2 = some c6PendingJob ∧
      c6PendingJob.state = JobState.pending) ∧
    (cancelResult c2State 2 = true ∧
      findJob (applyCancel c2State 2) 2 = some (cancelPendingUpd c6PendingJob) ∧
      (cancelPendingUpd c6PendingJob).state = JobState.failed ∧
      (cancelPendingUpd c6PendingJob).error = some cancelledWhilePendingError ∧
      (cancelPendingUpd c6PendingJob).output = none ∧
      (JobState.failed, c6PendingJob.progress) ∈ (cancelPendingUpd c6PendingJob).persisted ∧
      (∀ (tr : List Event) (j' : Job),
        j' ∈ (applyTrace (applyCancel c2State 2) tr).jobs → j'.id = 2 →
          j'.state = JobState.failed ∧ j'.output = none)) :=
  ⟨⟨⟨c2Trace, rfl⟩, by decide, rfl⟩,
    (claim6 2 c2State ⟨c2Trace, rfl⟩ 2 c6PendingJob (by decide)).1 rfl⟩

/-- C10: the return value of `cancel` is `false` both for an id absent from
the job table and for a job already in a terminal state, so the result alone
does not distinguish an unknown id from a known, non-cancellable job. -/
theorem claim10 (s : SysState) (id : Nat) :
    (findJob s id = none → cancelResult s id = false) ∧
    (∀ j, findJob s id = some j →
      (j.state = JobState.completed ∨ j.state = JobState.failed) →
      cancelResult s id = false) := by
  constructor
  · intro h
    rw [cancelResult.eq_def, h]
  · intro j hj hterm
    rw [cancelResult.eq_def, hj]
    show (j.state == JobState.pending || j.state == JobState.running) = false
    rcases hterm with h | h <;> rw [h] <;> rfl

/-- C10 witness: an unknown id against the empty manager and the completed
job of a finished run — both cancel results are `false`. -/
theorem claim10_witness :
    (findJob (initState 2) 5 = none ∧ cancelResult (initState 2) 5 = false) ∧
    (findJob c10State 0 = some c10DoneJob ∧
      (c10DoneJob.state = JobState.completed ∨ c10DoneJob.state = JobState.failed) ∧
      cancelResult c10State 0 = false) :=
  ⟨⟨rfl, (claim10 (initState 2) 5).1 rfl⟩,
    ⟨by decide, Or.inl rfl,
      (claim10 c10State 0).2 c10DoneJob (by decide) (Or.inl rfl)⟩⟩

end Facade
